import Mathlib

/-!
# The `http` helper package (`http.go`)

A shallow embedding of the response helpers (`RespondWithJSON`, `Respond`,
`RespondNoStruct`) and the request helpers (`GetRequest`, `PostRequest`,
`SendRequest`, `PostFormRequest`, `PostMultipartFormData`) of `http.go`.

Everything the package reaches outside itself is made explicit:

* `http.ResponseWriter` is an interface, so a writer is the log of the calls
  made on it;
* the network, the form encoder of `gorilla/schema`, the random multipart
  boundary and the order in which a `range` loop visits a map are fields of a
  `World`, and every theorem holds for every `World`;
* `encoding/json` is modelled on a domain of dynamic values (`GoValue`), with
  the escaping rules of `json.Marshal`; `jsonDecode` parses a written text
  back into the value it spells, and `jsonUnmarshal` is `json.Unmarshal` into
  an `interface{}`, which gives a `float64` for every number and a map for
  every object;
* a Go function returning `([]byte, error)` returns a pair of options here, so
  that `nil` and non-`nil` results are told apart, and every request helper
  also returns the list of the effects it performed, in order.
-/

namespace Http

/-! ## Go values and `encoding/json` -/

/-- A Go `error`, identified by its message. -/
abbrev Error := String

/-- The dynamic values handed to the helpers as `interface{}`.
Numbers are Go `int`s (no arithmetic is done on them, so they are plain
integers here); strings are texts (valid UTF-8); `slice` is a non-nil
`[]interface{}`; `object` is a struct value,
given by the JSON names and values of its encoded fields in declaration order,
the order in which `json.Marshal` emits them; `chan` is a channel, a value
`json.Marshal` refuses. -/
inductive GoValue where
  | null
  | bool (b : Bool)
  | int (n : Int)
  | str (s : String)
  | slice (xs : List GoValue)
  | object (fields : List (String × GoValue))
  | chan

/-- The decimal digit `d` (for `d < 10`). -/
def digitChar (d : Nat) : Char := Char.ofNat (48 + d)

/-- Decimal digits of `n` in front of `acc`, most significant first
(`fuel` bounds the number of digits). -/
def natDigitsAux : Nat → Nat → List Char → List Char
  | 0, _, acc => acc
  | fuel + 1, n, acc =>
    if n < 10 then digitChar n :: acc
    else natDigitsAux fuel (n / 10) (digitChar (n % 10) :: acc)

/-- The decimal representation of a natural number. -/
def natDigits (n : Nat) : List Char := natDigitsAux (n + 1) n []

/-- The decimal representation of an integer, as `strconv.AppendInt` in base
10 writes it. -/
def intDigits : Int → List Char
  | Int.ofNat n => natDigits n
  | Int.negSucc n => '-' :: natDigits (n + 1)

/-- The lower-case hexadecimal digit `n` (for `n < 16`). -/
def hexChar (n : Nat) : Char :=
  if n < 10 then Char.ofNat (48 + n) else Char.ofNat (87 + n)

/-- How `json.Marshal` writes one character of a string: the quote and the
backslash are escaped with a backslash, newline, carriage return and tab get
their short escapes, the other control characters and the HTML characters
`<`, `>`, `&` become `\u00xx`, the line separators U+2028 and U+2029 are written
as their four-digit escapes, and everything else is copied. (From Go 1.22 on
backspace and form feed are written as the short escapes `\b` and `\f`; the
decoders below read both spellings.) -/
def escapeChar (c : Char) : List Char :=
  if c = '"' ∨ c = '\\' then ['\\', c]
  else if c = '\n' then ['\\', 'n']
  else if c = '\r' then ['\\', 'r']
  else if c = '\t' then ['\\', 't']
  else if c.toNat < 32 ∨ c = '<' ∨ c = '>' ∨ c = '&' then
    ['\\', 'u', '0', '0', hexChar (c.toNat / 16), hexChar (c.toNat % 16)]
  else if c.toNat = 8232 ∨ c.toNat = 8233 then
    ['\\', 'u', '2', '0', '2', hexChar (c.toNat % 16)]
  else [c]

/-- The escaped characters of a string, without the surrounding quotes. -/
def escapeChars : List Char → List Char
  | [] => []
  | c :: cs => escapeChar c ++ escapeChars cs

/-- A JSON string literal. -/
def quote (s : String) : List Char := '"' :: (escapeChars s.data ++ ['"'])

mutual
/-- The JSON text of a value, or `none` when some part of it is unsupported. -/
def encodeValue : GoValue → Option (List Char)
  | .null => some ['n', 'u', 'l', 'l']
  | .bool true => some ['t', 'r', 'u', 'e']
  | .bool false => some ['f', 'a', 'l', 's', 'e']
  | .int n => some (intDigits n)
  | .str s => some (quote s)
  | .slice xs => (encodeElems xs).map (fun b => '[' :: (b ++ [']']))
  | .object fs => (encodeFields fs).map (fun b => '\x7b' :: (b ++ ['\x7d']))
  | .chan => none
/-- The elements of an array, separated by commas. -/
def encodeElems : List GoValue → Option (List Char)
  | [] => some []
  | v :: vs =>
    match encodeValue v, encodeElems vs with
    | some a, some b => some (if vs.isEmpty then a else a ++ ',' :: b)
    | _, _ => none
/-- The members of an object, separated by commas. -/
def encodeFields : List (String × GoValue) → Option (List Char)
  | [] => some []
  | (k, v) :: fs =>
    match encodeValue v, encodeFields fs with
    | some a, some b =>
      some (if fs.isEmpty then quote k ++ ':' :: a else quote k ++ ':' :: (a ++ ',' :: b))
    | _, _ => none
end

/-- The result pair of `json.Marshal`: the bytes and a nil error, or nil bytes
and an error. -/
def jsonMarshal (v : GoValue) : Option String × Option Error :=
  match encodeValue v with
  | some b => (some (String.mk b), none)
  | none => (none, some "json: unsupported type: chan int")

/-- The content of a byte slice that may be nil: a nil slice has no bytes. -/
def bytesOf (b : Option String) : String := b.getD ""

/-! ## The response envelope -/

/-- The struct `ResponseJSON`; a pointer field is an `Option`, `none` being
the nil pointer. -/
structure ResponseJSON where
  Success : Option Bool
  Code : Int
  Message : String
  Count : Option Int
  Data : GoValue

/-- The fields `json.Marshal` encodes for a `ResponseJSON`, by its struct
tags: `success` and `count` carry `omitempty` and are left out when their
pointer is nil; `code`, `message` and `data` are always there. -/
def ResponseJSON.fields (p : ResponseJSON) : List (String × GoValue) :=
  (match p.Success with
    | some b => [("success", GoValue.bool b)]
    | none => [])
  ++ [("code", GoValue.int p.Code), ("message", GoValue.str p.Message)]
  ++ (match p.Count with
    | some n => [("count", GoValue.int n)]
    | none => [])
  ++ [("data", p.Data)]

/-- A `ResponseJSON` as a dynamic value. -/
def ResponseJSON.toValue (p : ResponseJSON) : GoValue := .object p.fields

/-- The function `BoolPointer`. -/
def BoolPointer (input : Bool) : Option Bool := some input

/-- The function `NumberPointer`. -/
def NumberPointer (input : Int) : Option Int := some input

/-! ## The response helpers -/

/-- One call on an `http.ResponseWriter`. -/
inductive WriterCall where
  | headerSet (key value : String)
  | writeHeader (code : Int)
  | write (body : String)
  deriving DecidableEq

/-- An `http.ResponseWriter`: the calls made on it so far, oldest first. -/
abbrev ResponseWriter := List WriterCall

/-- The function `RespondWithJSON`. -/
def RespondWithJSON (w : ResponseWriter) (code : Int) (message : String)
    (payload : GoValue) (count : Int) : ResponseWriter :=
  let responseStruct : ResponseJSON :=
    { Success := none, Code := code, Message := message, Data := payload, Count := some count }
  let response := (jsonMarshal responseStruct.toValue).1
  let w := w ++ [.headerSet "Content-Type" "application/json"]
  let w := w ++ [.writeHeader code]
  w ++ [.write (bytesOf response)]

/-- The method `Respond` of `*ResponseJSON`, on a non-nil receiver. -/
def ResponseJSON.Respond (p : ResponseJSON) (w : ResponseWriter) : ResponseWriter :=
  let response := (jsonMarshal p.toValue).1
  let w := w ++ [.headerSet "Content-Type" "application/json"]
  let w := w ++ [.writeHeader p.Code]
  w ++ [.write (bytesOf response)]

/-- The function `RespondNoStruct`. -/
def RespondNoStruct (w : ResponseWriter) (code : Int) (payload : GoValue) : ResponseWriter :=
  let response := (jsonMarshal payload).1
  let w := w ++ [.headerSet "Content-Type" "application/json"]
  let w := w ++ [.writeHeader code]
  w ++ [.write (bytesOf response)]

/-! ## A JSON parser -/

/-- JSON white space. -/
def isSpace (c : Char) : Bool := c = ' ' || c = '\t' || c = '\n' || c = '\r'

/-- Drops leading white space. -/
def skipSpace : List Char → List Char
  | [] => []
  | c :: cs => if isSpace c then skipSpace cs else c :: cs

/-- Decimal digits. -/
def isDigit (c : Char) : Bool := decide (48 ≤ c.toNat) && decide (c.toNat ≤ 57)

/-- Reads decimal digits while there are some, onto the value `acc`. -/
def decodeDigits : Nat → List Char → Nat × List Char
  | acc, [] => (acc, [])
  | acc, c :: cs =>
    if isDigit c then decodeDigits (acc * 10 + (c.toNat - 48)) cs else (acc, c :: cs)

/-- What may not follow the digits of an integer: a fraction or an exponent. -/
def continuesNumber : List Char → Bool
  | [] => false
  | c :: _ => c = '.' || c = 'e' || c = 'E'

/-- Reads the digits of a JSON integer: at least one digit, no leading zero
before another digit, no fraction and no exponent after them. -/
def decodeNat : List Char → Option (Nat × List Char)
  | [] => none
  | c :: cs =>
    if isDigit c then
      let r := if c = '0' then (0, cs) else decodeDigits 0 (c :: cs)
      match r.2 with
      | [] => some r
      | d :: _ => if isDigit d || continuesNumber r.2 then none else some r
    else none

/-- The value of a hexadecimal digit. -/
def hexVal (c : Char) : Option Nat :=
  if 48 ≤ c.toNat ∧ c.toNat ≤ 57 then some (c.toNat - 48)
  else if 97 ≤ c.toNat ∧ c.toNat ≤ 102 then some (c.toNat - 87)
  else if 65 ≤ c.toNat ∧ c.toNat ≤ 70 then some (c.toNat - 55)
  else none

/-- The character a short escape stands for. -/
def unescape (e : Char) : Option Char :=
  if e = '"' ∨ e = '\\' ∨ e = '/' then some e
  else if e = 'b' then some (Char.ofNat 8)
  else if e = 'f' then some (Char.ofNat 12)
  else if e = 'n' then some '\n'
  else if e = 'r' then some '\r'
  else if e = 't' then some '\t'
  else none

/-- Reads a string literal after its opening quote: the characters it denotes
and what follows the closing quote. A raw control character is refused, and so
is the escape of a surrogate half (`json.Marshal` writes neither). -/
def decodeString : List Char → Option (List Char × List Char)
  | [] => none
  | c :: rest =>
    if c = '"' then some ([], rest)
    else if c = '\\' then
      match rest with
      | [] => none
      | e :: rest1 =>
        if e = 'u' then
          match rest1 with
          | h1 :: h2 :: h3 :: h4 :: rest2 =>
            match hexVal h1, hexVal h2, hexVal h3, hexVal h4 with
            | some a, some b, some c, some d =>
              let n := ((a * 16 + b) * 16 + c) * 16 + d
              if 55296 ≤ n ∧ n ≤ 57343 then none
              else (decodeString rest2).map (fun r => (Char.ofNat n :: r.1, r.2))
            | _, _, _, _ => none
          | _ => none
        else
          match unescape e with
          | some ch => (decodeString rest1).map (fun r => (ch :: r.1, r.2))
          | none => none
    else if c.toNat < 32 then none
    else (decodeString rest).map (fun r => (c :: r.1, r.2))

/-- Reads the given characters, or fails. -/
def expect : List Char → List Char → Option (List Char)
  | [], cs => some cs
  | _ :: _, [] => none
  | e :: es, c :: cs => if c = e then expect es cs else none

mutual
/-- Reads one JSON value and returns it with the rest of the input. -/
def decodeValue : Nat → List Char → Option (GoValue × List Char)
  | 0, _ => none
  | fuel + 1, cs =>
    match skipSpace cs with
    | [] => none
    | c :: rest =>
      if c = 'n' then (expect ['u', 'l', 'l'] rest).map (fun r => (GoValue.null, r))
      else if c = 't' then (expect ['r', 'u', 'e'] rest).map (fun r => (GoValue.bool true, r))
      else if c = 'f' then
        (expect ['a', 'l', 's', 'e'] rest).map (fun r => (GoValue.bool false, r))
      else if c = '"' then
        (decodeString rest).map (fun r => (GoValue.str (String.mk r.1), r.2))
      else if c = '[' then
        match skipSpace rest with
        | [] => none
        | d :: rest1 =>
          if d = ']' then some (GoValue.slice [], rest1)
          else (decodeElems fuel rest).map (fun r => (GoValue.slice r.1, r.2))
      else if c = '\x7b' then
        match skipSpace rest with
        | [] => none
        | d :: rest1 =>
          if d = '\x7d' then some (GoValue.object [], rest1)
          else (decodeFields fuel rest).map (fun r => (GoValue.object r.1, r.2))
      else if c = '-' then (decodeNat rest).map (fun r => (GoValue.int (-(r.1 : Int)), r.2))
      else (decodeNat (c :: rest)).map (fun r => (GoValue.int (r.1 : Int), r.2))
/-- Reads the elements of a non-empty array and its closing bracket. -/
def decodeElems : Nat → List Char → Option (List GoValue × List Char)
  | 0, _ => none
  | fuel + 1, cs =>
    match decodeValue fuel cs with
    | none => none
    | some (v, rest) =>
      match skipSpace rest with
      | [] => none
      | d :: rest1 =>
        if d = ',' then (decodeElems fuel rest1).map (fun r => (v :: r.1, r.2))
        else if d = ']' then some ([v], rest1)
        else none
/-- Reads the members of a non-empty object and its closing brace. -/
def decodeFields : Nat → List Char → Option (List (String × GoValue) × List Char)
  | 0, _ => none
  | fuel + 1, cs =>
    match skipSpace cs with
    | [] => none
    | q :: rest =>
      if q = '"' then
        match decodeString rest with
        | none => none
        | some (k, rest1) =>
          match skipSpace rest1 with
          | [] => none
          | c :: rest2 =>
            if c = ':' then
              match decodeValue fuel rest2 with
              | none => none
              | some (v, rest3) =>
                match skipSpace rest3 with
                | [] => none
                | d :: rest4 =>
                  if d = ',' then
                    (decodeFields fuel rest4).map (fun r => ((String.mk k, v) :: r.1, r.2))
                  else if d = '\x7d' then some ([(String.mk k, v)], rest4)
                  else none
            else none
      else none
end

/-- Parses a JSON text holding one value, with nothing but white space after
it, into the value it spells: numbers are read as integers, arrays as slices,
and objects as their members in the order of the text. This reads what was
written; what `json.Unmarshal` makes of a text is `jsonUnmarshal`. -/
def jsonDecode (s : String) : Option GoValue :=
  match decodeValue (s.data.length + 1) s.data with
  | some (v, rest) => if (skipSpace rest).isEmpty then some v else none
  | none => none

/-- What may follow a value inside a JSON text: nothing, a comma or a closing
bracket. -/
def Closes (rest : List Char) : Prop :=
  rest = [] ∨ ∃ d t, rest = d :: t ∧ (d = ',' ∨ d = ']' ∨ d = '\x7d')

/-! ## Maps, headers and requests -/

/-- A Go map with string keys, as the list of its entries (keys distinct). -/
abbrev GoMap (V : Type) := List (String × V)

/-- The map index expression `m[k]`, `none` when the key is absent. -/
def GoMap.get {V : Type} (m : GoMap V) (k : String) : Option V :=
  match m with
  | [] => none
  | (k1, v1) :: rest => if k1 = k then some v1 else GoMap.get rest k

/-- The assignment `m[k] = v`. -/
def GoMap.assign {V : Type} (m : GoMap V) (k : String) (v : V) : GoMap V :=
  match m with
  | [] => [(k, v)]
  | (k1, v1) :: rest => if k1 = k then (k, v) :: rest else (k1, v1) :: GoMap.assign rest k v

/-! ## `json.Unmarshal` into an `interface{}` -/

/-- The values `json.Unmarshal` stores in an `interface{}`: nil, a `bool`, a
`float64` for every number, a `string`, a `[]interface{}` for an array and a
`map[string]interface{}` for an object. `F` stands for the type `float64`. -/
inductive Decoded (F : Type) where
  | null
  | bool (b : Bool)
  | float64 (x : F)
  | str (s : String)
  | slice (xs : List (Decoded F))
  | map (m : List (String × Decoded F))

/-- Splits off the decimal digits at the head of the input. -/
def spanDigits : List Char → List Char × List Char
  | [] => ([], [])
  | c :: cs =>
    if isDigit c then ((c :: (spanDigits cs).1), (spanDigits cs).2) else ([], c :: cs)

/-- Reads the optional fraction of a number literal: a point and at least one
digit. -/
def readFraction : List Char → Option (List Char × List Char)
  | [] => some ([], [])
  | c :: t =>
    if c = '.' then
      if (spanDigits t).1.isEmpty then none else some (c :: (spanDigits t).1, (spanDigits t).2)
    else some ([], c :: t)

/-- Reads the optional sign of an exponent. -/
def readSign : List Char → List Char × List Char
  | [] => ([], [])
  | d :: t => if d = '+' ∨ d = '-' then ([d], t) else ([], d :: t)

/-- Reads the optional exponent of a number literal: `e` or `E`, an optional
sign and at least one digit. -/
def readExponent : List Char → Option (List Char × List Char)
  | [] => some ([], [])
  | c :: t =>
    if c = 'e' ∨ c = 'E' then
      if (spanDigits (readSign t).2).1.isEmpty then none
      else some (c :: ((readSign t).1 ++ (spanDigits (readSign t).2).1),
        (spanDigits (readSign t).2).2)
    else some ([], c :: t)

/-- Reads a JSON number literal and returns its text with the rest of the
input: an optional minus, then `0` or a digit from 1 to 9 followed by digits,
then an optional fraction and an optional exponent. -/
def readNumber (cs : List Char) : Option (List Char × List Char) :=
  let signed : List Char × List Char :=
    match cs with
    | [] => ([], [])
    | c :: t => if c = '-' then ([c], t) else ([], c :: t)
  match signed.2 with
  | [] => none
  | c :: t =>
    if isDigit c then
      let whole := if c = '0' then ([c], t) else spanDigits (c :: t)
      match readFraction whole.2 with
      | none => none
      | some frac =>
        match readExponent frac.2 with
        | none => none
        | some ex => some (signed.1 ++ (whole.1 ++ (frac.1 ++ ex.1)), ex.2)
    else none

mutual
/-- Reads one JSON value as `json.Unmarshal` does into an `interface{}`;
`parseFloat` is `strconv.ParseFloat` on the text of a number literal, whose
failure (a number out of range) fails the decoding. -/
def unmarshalValue {F : Type} (parseFloat : List Char → Option F) :
    Nat → List Char → Option (Decoded F × List Char)
  | 0, _ => none
  | fuel + 1, cs =>
    match skipSpace cs with
    | [] => none
    | c :: rest =>
      if c = 'n' then (expect ['u', 'l', 'l'] rest).map (fun r => (Decoded.null, r))
      else if c = 't' then (expect ['r', 'u', 'e'] rest).map (fun r => (Decoded.bool true, r))
      else if c = 'f' then
        (expect ['a', 'l', 's', 'e'] rest).map (fun r => (Decoded.bool false, r))
      else if c = '"' then
        (decodeString rest).map (fun r => (Decoded.str (String.mk r.1), r.2))
      else if c = '[' then
        match skipSpace rest with
        | [] => none
        | d :: rest1 =>
          if d = ']' then some (Decoded.slice [], rest1)
          else (unmarshalElems parseFloat fuel rest).map (fun r => (Decoded.slice r.1, r.2))
      else if c = '\x7b' then
        match skipSpace rest with
        | [] => none
        | d :: rest1 =>
          if d = '\x7d' then some (Decoded.map [], rest1)
          else (unmarshalMembers parseFloat fuel rest []).map (fun r => (Decoded.map r.1, r.2))
      else
        match readNumber (c :: rest) with
        | none => none
        | some (text, rest1) => (parseFloat text).map (fun x => (Decoded.float64 x, rest1))
/-- Reads the elements of a non-empty array and its closing bracket. -/
def unmarshalElems {F : Type} (parseFloat : List Char → Option F) :
    Nat → List Char → Option (List (Decoded F) × List Char)
  | 0, _ => none
  | fuel + 1, cs =>
    match unmarshalValue parseFloat fuel cs with
    | none => none
    | some (v, rest) =>
      match skipSpace rest with
      | [] => none
      | d :: rest1 =>
        if d = ',' then (unmarshalElems parseFloat fuel rest1).map (fun r => (v :: r.1, r.2))
        else if d = ']' then some ([v], rest1)
        else none
/-- Reads the members of a non-empty object and its closing brace into the
map `m`: each member is assigned to its key, so a repeated key keeps its last
value. -/
def unmarshalMembers {F : Type} (parseFloat : List Char → Option F) :
    Nat → List Char → List (String × Decoded F) → Option (List (String × Decoded F) × List Char)
  | 0, _, _ => none
  | fuel + 1, cs, m =>
    match skipSpace cs with
    | [] => none
    | q :: rest =>
      if q = '"' then
        match decodeString rest with
        | none => none
        | some (k, rest1) =>
          match skipSpace rest1 with
          | [] => none
          | c :: rest2 =>
            if c = ':' then
              match unmarshalValue parseFloat fuel rest2 with
              | none => none
              | some (v, rest3) =>
                match skipSpace rest3 with
                | [] => none
                | d :: rest4 =>
                  if d = ',' then
                    unmarshalMembers parseFloat fuel rest4 (GoMap.assign m (String.mk k) v)
                  else if d = '\x7d' then some (GoMap.assign m (String.mk k) v, rest4)
                  else none
            else none
      else none
end

/-- The function `json.Unmarshal` with an `interface{}` as target: the text
holds one value, with nothing but white space after it. (One departure, in
`decodeString`: the escape of a surrogate half, which Go pairs up or replaces
by U+FFFD, is refused; `json.Marshal` writes none.) -/
def jsonUnmarshal {F : Type} (parseFloat : List Char → Option F) (s : String) :
    Option (Decoded F) :=
  match unmarshalValue parseFloat (s.data.length + 1) s.data with
  | some (v, rest) => if (skipSpace rest).isEmpty then some v else none
  | none => none

mutual
/-- The function `reflect.DeepEqual` between a payload and a decoded value:
values of different types are never equal, so an `int` is not equal to a
`float64`, nor a struct to a map. -/
def DeepEqual {F : Type} : GoValue → Decoded F → Bool
  | .null, .null => true
  | .bool a, .bool b => a == b
  | .str a, .str b => decide (a = b)
  | .slice xs, .slice ys => DeepEqualList xs ys
  | _, _ => false
/-- Element by element equality of two slices of the same length. -/
def DeepEqualList {F : Type} : List GoValue → List (Decoded F) → Bool
  | [], [] => true
  | x :: xs, y :: ys => DeepEqual x y && DeepEqualList xs ys
  | _, _ => false
end

mutual
/-- The JSON-safe payloads: those `json.Unmarshal` gives back as they were,
which are nil, booleans, strings and slices of JSON-safe values. A Go `int`
comes back as a `float64` and a struct as a map, and a channel is not written
at all. -/
def JSONSafe : GoValue → Bool
  | .null => true
  | .bool _ => true
  | .str _ => true
  | .slice xs => JSONSafeList xs
  | _ => false
/-- All elements are JSON-safe. -/
def JSONSafeList : List GoValue → Bool
  | [] => true
  | v :: vs => JSONSafe v && JSONSafeList vs
end

/-- The type `http.Header`, a `map[string][]string`. -/
abbrev Header := GoMap (List String)

/-- The type `url.Values`, a `map[string][]string`. -/
abbrev Values := GoMap (List String)

/-- The bytes allowed in a header field name (the token characters of
RFC 7230), as `net/textproto` checks them. -/
def validHeaderFieldByte (c : Char) : Bool :=
  c.isAlphanum || [33, 35, 36, 37, 38, 39, 42, 43, 45, 46, 94, 95, 96, 124, 126].contains c.toNat

/-- The canonical letter case of a header name: upper case for the first
letter and for a letter after a hyphen, lower case for the others. -/
def canonicalCase : Bool → List Char → List Char
  | _, [] => []
  | upper, c :: cs =>
    let c1 := if upper && c.isLower then c.toUpper
      else if !upper && c.isUpper then c.toLower else c
    c1 :: canonicalCase (c1 == '-') cs

/-- The function `textproto.CanonicalMIMEHeaderKey`: a name holding a byte
that is not allowed in a field name is returned unchanged. -/
def CanonicalMIMEHeaderKey (s : String) : String :=
  if s.data.all validHeaderFieldByte then String.mk (canonicalCase true s.data) else s

/-- The method `Header.Set`: the canonical key gets the single value. -/
def Header.Set (h : Header) (key value : String) : Header :=
  GoMap.assign h (CanonicalMIMEHeaderKey key) [value]

/-- The method `Header.Values`: the values under the canonical key. -/
def Header.Values (h : Header) (key : String) : List String :=
  (GoMap.get h (CanonicalMIMEHeaderKey key)).getD []

/-- An outgoing `http.Request`, as far as `SendRequest` fills it. -/
structure Request where
  Method : String
  URL : String
  Header : Header
  Body : String
  deriving DecidableEq

/-- A response body stream read to its end by `ioutil.ReadAll`: the bytes
that arrived, and the error that stopped the reading, if any. -/
structure BodyStream where
  data : String
  err : Option Error
  deriving DecidableEq

/-- An `http.Response`. -/
structure Response where
  StatusCode : Int
  Header : Header
  Body : BodyStream
  deriving DecidableEq

/-- The body handed to `http.Post`: a buffer of bytes, or the buffer a closed
`multipart.Writer` has filled, given by its boundary and the form fields
written to it, in order. -/
inductive Body where
  | bytes (b : String)
  | multipart (boundary : String) (fields : List (String × String))
  deriving DecidableEq

/-- What lies outside the package. -/
structure World where
  /-- The function `http.Get`. -/
  Get : String → Except Error Response
  /-- The function `http.Post`, by url, content type and body. -/
  Post : String → String → Body → Except Error Response
  /-- The function `http.PostForm`. -/
  PostForm : String → Values → Except Error Response
  /-- The method `Do` of a default `http.Client`. -/
  Do : Request → Except Error Response
  /-- The error of `http.NewRequest` for a method and a url, if it has one. -/
  NewRequestErr : String → String → Option Error
  /-- The form encoder: `encoder.Encode(payload, form)` on an empty `form`. -/
  Encode : GoValue → Except Error Values
  /-- The boundary a new `multipart.Writer` draws. -/
  boundary : String
  /-- The order in which a `range` loop visits the entries of a map. -/
  rangeOrder : (V : Type) → GoMap V → GoMap V

/-- A `range` loop visits every entry of a map exactly once. -/
def World.RangeVisitsAll (w : World) : Prop :=
  ∀ (V : Type) (m : GoMap V), (w.rangeOrder V m).Perm m

/-- What a request helper does to the outside, in order: a call of
`http.Get`, `http.Post`, `http.PostForm` or `client.Do` with its arguments,
`ioutil.ReadAll` on the response body, the copy of the rest of the body to
`ioutil.Discard`, the deferred `Body.Close`, and a line printed by
`fmt.Printf`. -/
inductive Effect where
  | httpGet (url : String)
  | httpPost (url contentType : String) (body : Body)
  | httpPostForm (url : String) (data : Values)
  | clientDo (req : Request)
  | readAll
  | discard
  | close
  | print (s : String)
  deriving DecidableEq

/-- The effects that send a request. -/
def Effect.isRequest : Effect → Bool
  | .httpGet _ => true
  | .httpPost _ _ _ => true
  | .httpPostForm _ _ => true
  | .clientDo _ => true
  | _ => false

/-- The requests among some effects. -/
def requests (es : List Effect) : List Effect := es.filter Effect.isRequest

/-- The line the form helpers print on an error. -/
def failureLine (err : Error) : String :=
  "The HTTP request failed with error " ++ err ++ "\n"

/-! ## The request helpers -/

/-- The function `GetRequest`. -/
def GetRequest (w : World) (endpoint : String) :
    (Option String × Option Error) × List Effect :=
  match w.Get endpoint with
  | .error err => ((none, some err), [.httpGet endpoint])
  | .ok resp =>
    match resp.Body.err with
    | some err => ((none, some err), [.httpGet endpoint, .readAll, .close])
    | none => ((some resp.Body.data, none), [.httpGet endpoint, .readAll, .discard, .close])

/-- The function `PostRequest`. -/
def PostRequest (w : World) (endpoint : String) (payload : GoValue) :
    (Option String × Option Error) × List Effect :=
  let jsonValue := (jsonMarshal payload).1
  let post := Effect.httpPost endpoint "application/json" (.bytes (bytesOf jsonValue))
  match w.Post endpoint "application/json" (.bytes (bytesOf jsonValue)) with
  | .error err => ((none, some err), [post])
  | .ok resp =>
    match resp.Body.err with
    | some err => ((none, some err), [post, .readAll, .close])
    | none => ((some resp.Body.data, none), [post, .readAll, .discard, .close])

/-- The function `http.NewRequest` with a buffer as body: an empty method
means GET, and the new request has no header. -/
def NewRequest (w : World) (method url body : String) : Except Error Request :=
  match w.NewRequestErr method url with
  | some err => .error err
  | none =>
    .ok { Method := if method = "" then "GET" else method, URL := url, Header := [], Body := body }

/-- The header loop of `SendRequest` over the entries in the order visited. -/
def setHeaders (httpRequest : Request) (entries : GoMap String) : Request :=
  entries.foldl (fun req kv => { req with Header := req.Header.Set kv.1 kv.2 }) httpRequest

/-- The function `SendRequest`. -/
def SendRequest (w : World) (method url : String) (header : GoMap String)
    (payload : GoValue) : (Option Response × Option String × Option Error) × List Effect :=
  match jsonMarshal payload with
  | (_, some err) => ((none, none, some err), [])
  | (requestBody, none) =>
    match NewRequest w method url (bytesOf requestBody) with
    | .error err => ((none, none, some err), [])
    | .ok httpRequest =>
      let httpRequest := setHeaders httpRequest (w.rangeOrder String header)
      match w.Do httpRequest with
      | .error err => ((none, none, some err), [.clientDo httpRequest])
      | .ok response =>
        match response.Body.err with
        | some err => ((none, none, some err), [.clientDo httpRequest, .readAll, .close])
        | none =>
          ((some response, some response.Body.data, none),
            [.clientDo httpRequest, .readAll, .close])

/-- The function `PostFormRequest`. -/
def PostFormRequest (w : World) (endpoint : String) (payload : GoValue) :
    (Option String × Option Error) × List Effect :=
  match w.Encode payload with
  | .error err => ((none, some err), [.print (failureLine err)])
  | .ok form =>
    match w.PostForm endpoint form with
    | .error err => ((none, some err), [.httpPostForm endpoint form, .print (failureLine err)])
    | .ok resp =>
      match resp.Body.err with
      | some err =>
        ((none, some err),
          [.httpPostForm endpoint form, .readAll, .print (failureLine err), .close])
      | none =>
        ((some resp.Body.data, none), [.httpPostForm endpoint form, .readAll, .discard, .close])

/-- The field loops of `PostMultipartFormData` over the entries in the order
visited: one `WriteField` for each value of each key. -/
def writeFields (entries : Values) : List (String × String) :=
  entries.foldl
    (fun written kv => kv.2.foldl (fun written value => written ++ [(kv.1, value)]) written) []

/-- The method `FormDataContentType`: the boundary is quoted when it holds a
special character. -/
def FormDataContentType (boundary : String) : String :=
  let b := if boundary.data.any (fun c => "()<>@,;:\\\"/[]?= ".data.contains c)
    then "\"" ++ boundary ++ "\"" else boundary
  "multipart/form-data; boundary=" ++ b

/-- The function `PostMultipartFormData`. -/
def PostMultipartFormData (w : World) (endpoint : String) (payload : GoValue) :
    (Option String × Option Error) × List Effect :=
  match w.Encode payload with
  | .error err => ((none, some err), [.print (failureLine err)])
  | .ok form =>
    let fields := writeFields (w.rangeOrder (List String) form)
    let contentType := FormDataContentType w.boundary
    let post := Effect.httpPost endpoint contentType (.multipart w.boundary fields)
    match w.Post endpoint contentType (.multipart w.boundary fields) with
    | .error err => ((none, some err), [post])
    | .ok resp =>
      match resp.Body.err with
      | some err => ((none, some err), [post, .readAll, .close])
      | none => ((some resp.Body.data, none), [post, .readAll, .close])

/-- The form fields a `url.Values` holds: one pair for each value of each key. -/
def Values.pairs (form : Values) : List (String × String) :=
  form.flatMap (fun kv => kv.2.map (fun v => (kv.1, v)))

/-- What a helper returns for a reply of the transport: the whole body when
the request and the reading both succeed, the error otherwise. -/
def outcome (reply : Except Error Response) : Option String × Option Error :=
  match reply with
  | .error err => (none, some err)
  | .ok resp =>
    match resp.Body.err with
    | some err => (none, some err)
    | none => (some resp.Body.data, none)

/-- The value kept for a canonical key after `Set` calls over `entries`, in
order: that of the last entry whose key has this canonical form. -/
def lastValue (entries : GoMap String) (ck : String) : Option String :=
  match entries with
  | [] => none
  | (k, v) :: rest =>
    match lastValue rest ck with
    | some v1 => some v1
    | none => if CanonicalMIMEHeaderKey k = ck then some v else none

/-- No failure in part, for a helper that got `reply` from the transport: it
returns the whole body of a reply read without error, with a nil error; or a
nil body with an error. -/
def AllOrNothing (reply : Except Error Response) (r : Option String × Option Error) : Prop :=
  (∃ resp, reply = .ok resp ∧ resp.Body.err = none ∧ r = (some resp.Body.data, none))
  ∨ (∃ err, r = (none, some err))

/-- A sample form encoder: a struct of string fields gives one value for each
field, anything else is refused. -/
def sampleEncode : GoValue → Except Error Values
  | .object fs =>
    fs.foldr (fun kv acc =>
      match kv.2, acc with
      | .str s, .ok form => .ok ((kv.1, [s]) :: form)
      | _, _ => .error "schema: encoder not found") (.ok [])
  | _ => .error "schema: interface must be a struct"

/-- A sample world: every request is answered 200 with the body `pong`, and a
`range` loop visits a map from its last entry to its first. -/
def sampleWorld : World where
  Get := fun _ => .ok ⟨200, [], ⟨"pong", none⟩⟩
  Post := fun _ _ _ => .ok ⟨200, [], ⟨"pong", none⟩⟩
  PostForm := fun _ _ => .ok ⟨200, [], ⟨"pong", none⟩⟩
  Do := fun _ => .ok ⟨200, [], ⟨"pong", none⟩⟩
  NewRequestErr := fun _ _ => none
  Encode := sampleEncode
  boundary := "7d1b3f"
  rangeOrder := fun _ m => m.reverse

/-- The sample world with a `range` loop that visits a map from its first
entry to its last. -/
def sampleWorldForward : World := { sampleWorld with rangeOrder := fun _ m => m }

/-! ## Theorems: serialization -/

theorem jsonMarshal_of_encode {v : GoValue} {b : List Char} (h : encodeValue v = some b) :
    jsonMarshal v = (some (String.mk b), none) := by
  simp [jsonMarshal, h]

theorem jsonMarshal_of_encode_none {v : GoValue} (h : encodeValue v = none) :
    jsonMarshal v = (none, some "json: unsupported type: chan int") := by
  simp [jsonMarshal, h]

theorem jsonMarshal_cases (v : GoValue) :
    (∃ b, jsonMarshal v = (some b, none)) ∨ (∃ e, jsonMarshal v = (none, some e)) := by
  cases h : encodeValue v with
  | none => exact Or.inr ⟨_, jsonMarshal_of_encode_none h⟩
  | some b => exact Or.inl ⟨_, jsonMarshal_of_encode h⟩

theorem encode_none_of_marshal_err {v : GoValue} (h : (jsonMarshal v).2 ≠ none) :
    encodeValue v = none := by
  cases hv : encodeValue v with
  | none => rfl
  | some b => simp [jsonMarshal, hv] at h

theorem encodeFields_cons_of_none (k : String) (v : GoValue) (fs : List (String × GoValue))
    (h : encodeFields fs = none) : encodeFields ((k, v) :: fs) = none := by
  rw [encodeFields, h]
  cases encodeValue v <;> rfl

theorem encodeFields_append_none (fs : List (String × GoValue)) (k : String) (v : GoValue)
    (h : encodeValue v = none) : encodeFields (fs ++ [(k, v)]) = none := by
  induction fs with
  | nil => simp [encodeFields, h]
  | cons kv rest ih => exact encodeFields_cons_of_none kv.1 kv.2 _ ih

theorem envelope_encode_none (p : ResponseJSON) (h : encodeValue p.Data = none) :
    encodeValue p.toValue = none := by
  have := encodeFields_append_none
    ((match p.Success with
      | some b => [("success", GoValue.bool b)]
      | none => [])
    ++ [("code", GoValue.int p.Code), ("message", GoValue.str p.Message)]
    ++ (match p.Count with
      | some n => [("count", GoValue.int n)]
      | none => [])) "data" p.Data h
  simp only [ResponseJSON.toValue, ResponseJSON.fields, encodeValue, this, Option.map_none']

/-! ## Theorems: the response helpers -/

/-- C9: when the payload does not serialize, each response helper still sets
the content type, writes the status line with the given code and performs the
body write, with an empty body. -/
theorem response_helpers_ignore_marshal_failure (w : ResponseWriter) (code : Int)
    (message : String) (payload : GoValue) (count : Int) (p : ResponseJSON)
    (hpayload : (jsonMarshal payload).2 ≠ none) (hdata : (jsonMarshal p.Data).2 ≠ none) :
    RespondWithJSON w code message payload count =
        w ++ [.headerSet "Content-Type" "application/json", .writeHeader code, .write ""]
    ∧ p.Respond w =
        w ++ [.headerSet "Content-Type" "application/json", .writeHeader p.Code, .write ""]
    ∧ RespondNoStruct w code payload =
        w ++ [.headerSet "Content-Type" "application/json", .writeHeader code, .write ""] := by
  have h1 := encode_none_of_marshal_err hpayload
  have h2 := encode_none_of_marshal_err hdata
  have e1 := envelope_encode_none ⟨none, code, message, some count, payload⟩ h1
  have e2 := envelope_encode_none p h2
  refine ⟨?_, ?_, ?_⟩
  · simp [RespondWithJSON, jsonMarshal, e1, bytesOf]
  · simp [ResponseJSON.Respond, jsonMarshal, e2, bytesOf]
  · simp [RespondNoStruct, jsonMarshal, h1, bytesOf]

theorem response_helpers_ignore_marshal_failure_witness :
    (jsonMarshal (.slice [.int 1, .chan])).2 ≠ none
    ∧ RespondWithJSON [] 200 "ok" (.slice [.int 1, .chan]) 2 =
        [.headerSet "Content-Type" "application/json", .writeHeader 200, .write ""]
    ∧ ResponseJSON.Respond ⟨some true, 200, "ok", none, .chan⟩ [] =
        [.headerSet "Content-Type" "application/json", .writeHeader 200, .write ""]
    ∧ RespondNoStruct [] 200 (.slice [.int 1, .chan]) =
        [.headerSet "Content-Type" "application/json", .writeHeader 200, .write ""] :=
  ⟨by decide,
    response_helpers_ignore_marshal_failure [] 200 "ok" (.slice [.int 1, .chan]) 2
      ⟨some true, 200, "ok", none, .chan⟩ (by decide) (by decide)⟩

/-! ## Theorems: the request helpers -/

theorem PostRequest_requests (w : World) (endpoint : String) (payload : GoValue) :
    requests (PostRequest w endpoint payload).2 =
      [.httpPost endpoint "application/json" (.bytes (bytesOf (jsonMarshal payload).1))] := by
  cases h : w.Post endpoint "application/json" (.bytes (bytesOf (jsonMarshal payload).1)) with
  | error err => simp [PostRequest, h, requests, Effect.isRequest]
  | ok resp =>
    cases h2 : resp.Body.err <;> simp [PostRequest, h, h2, requests, Effect.isRequest]

theorem PostRequest_result (w : World) (endpoint : String) (payload : GoValue) :
    (PostRequest w endpoint payload).1 =
      outcome (w.Post endpoint "application/json" (.bytes (bytesOf (jsonMarshal payload).1))) := by
  cases h : w.Post endpoint "application/json" (.bytes (bytesOf (jsonMarshal payload).1)) with
  | error err => simp [PostRequest, outcome, h]
  | ok resp => cases h2 : resp.Body.err <;> simp [PostRequest, outcome, h, h2]

/-- C6: `PostRequest` sends exactly one request, a POST to the endpoint with
content type `application/json`; its body is the serialization of the payload
when there is one and empty when serialization fails; and what is returned is
decided by the reply to that request alone, so a serialization failure is
neither returned nor a reason not to send. -/
theorem PostRequest_sends_one_json_post (w : World) (endpoint : String) (payload : GoValue) :
    ∃ body : String,
      ((∃ b, jsonMarshal payload = (some b, none) ∧ body = b)
        ∨ (∃ e, jsonMarshal payload = (none, some e) ∧ body = ""))
      ∧ requests (PostRequest w endpoint payload).2 =
          [.httpPost endpoint "application/json" (.bytes body)]
      ∧ (PostRequest w endpoint payload).1 =
          outcome (w.Post endpoint "application/json" (.bytes body)) := by
  refine ⟨bytesOf (jsonMarshal payload).1, ?_, ?_, ?_⟩
  · rcases jsonMarshal_cases payload with ⟨b, hb⟩ | ⟨e, he⟩
    · exact Or.inl ⟨b, hb, by simp [hb, bytesOf]⟩
    · exact Or.inr ⟨e, he, by simp [he, bytesOf]⟩
  · exact PostRequest_requests w endpoint payload
  · exact PostRequest_result w endpoint payload

/-- C5, as the code has it: when the payload does not serialize, `SendRequest`
returns the serialization error, with a nil response and a nil body, and sends
nothing. -/
theorem SendRequest_returns_marshal_error (w : World) (method url : String)
    (header : GoMap String) (payload : GoValue) (err : Error)
    (hfail : (jsonMarshal payload).2 = some err) :
    SendRequest w method url header payload = ((none, none, some err), []) := by
  have h := encode_none_of_marshal_err (by rw [hfail]; simp)
  rw [jsonMarshal_of_encode_none h] at hfail
  simp only [SendRequest, jsonMarshal_of_encode_none h]
  simp only [Option.some.injEq] at hfail
  rw [hfail]

theorem SendRequest_returns_marshal_error_witness :
    (jsonMarshal .chan).2 = some "json: unsupported type: chan int"
    ∧ SendRequest sampleWorld "POST" "http://example.test/items" [] .chan =
        ((none, none, some "json: unsupported type: chan int"), []) :=
  ⟨by decide,
    SendRequest_returns_marshal_error sampleWorld "POST" "http://example.test/items" [] .chan
      "json: unsupported type: chan int" (by decide)⟩

/-- C5 fails: for a channel payload `SendRequest` sends no request and hands
the serialization error back to the caller. -/
theorem SendRequest_discards_marshal_error_counterexample :
    (jsonMarshal .chan).2 = some "json: unsupported type: chan int"
    ∧ requests (SendRequest sampleWorld "POST" "http://example.test/items" [] .chan).2 = []
    ∧ (SendRequest sampleWorld "POST" "http://example.test/items" [] .chan).1.2.2 =
        (jsonMarshal .chan).2 := by
  decide

theorem allOrNothing_outcome (reply : Except Error Response) : AllOrNothing reply (outcome reply) := by
  cases reply with
  | error err => exact Or.inr ⟨err, rfl⟩
  | ok resp =>
    cases h : resp.Body.err with
    | none => exact Or.inl ⟨resp, rfl, h, by simp [outcome, h]⟩
    | some err => exact Or.inr ⟨err, by simp [outcome, h]⟩

theorem GetRequest_result (w : World) (endpoint : String) :
    (GetRequest w endpoint).1 = outcome (w.Get endpoint) := by
  cases h : w.Get endpoint with
  | error err => simp [GetRequest, outcome, h]
  | ok resp => cases h2 : resp.Body.err <;> simp [GetRequest, outcome, h, h2]

theorem PostFormRequest_result (w : World) (endpoint : String) (payload : GoValue) (form : Values)
    (hform : w.Encode payload = .ok form) :
    (PostFormRequest w endpoint payload).1 = outcome (w.PostForm endpoint form)
    ∧ requests (PostFormRequest w endpoint payload).2 = [.httpPostForm endpoint form] := by
  cases h : w.PostForm endpoint form with
  | error err => simp [PostFormRequest, outcome, hform, h, requests, Effect.isRequest]
  | ok resp =>
    cases h2 : resp.Body.err <;>
      simp [PostFormRequest, outcome, hform, h, h2, requests, Effect.isRequest]

theorem PostMultipartFormData_result (w : World) (endpoint : String) (payload : GoValue)
    (form : Values) (hform : w.Encode payload = .ok form) :
    (PostMultipartFormData w endpoint payload).1 =
      outcome (w.Post endpoint (FormDataContentType w.boundary)
        (.multipart w.boundary (writeFields (w.rangeOrder (List String) form))))
    ∧ requests (PostMultipartFormData w endpoint payload).2 =
        [.httpPost endpoint (FormDataContentType w.boundary)
          (.multipart w.boundary (writeFields (w.rangeOrder (List String) form)))] := by
  cases h : w.Post endpoint (FormDataContentType w.boundary)
      (.multipart w.boundary (writeFields (w.rangeOrder (List String) form))) with
  | error err => simp [PostMultipartFormData, outcome, hform, h, requests, Effect.isRequest]
  | ok resp =>
    cases h2 : resp.Body.err <;>
      simp [PostMultipartFormData, outcome, hform, h, h2, requests, Effect.isRequest]

theorem SendRequest_result (w : World) (method url : String) (header : GoMap String)
    (payload : GoValue) :
    (∃ req resp, Effect.clientDo req ∈ (SendRequest w method url header payload).2
        ∧ w.Do req = .ok resp ∧ resp.Body.err = none
        ∧ (SendRequest w method url header payload).1 = (some resp, some resp.Body.data, none))
    ∨ (∃ err, (SendRequest w method url header payload).1 = (none, none, some err)) := by
  rcases jsonMarshal_cases payload with ⟨b, hb⟩ | ⟨e, he⟩
  · cases hn : w.NewRequestErr method url with
    | some err => exact Or.inr ⟨err, by simp [SendRequest, hb, NewRequest, hn]⟩
    | none =>
      cases hd : w.Do (setHeaders
          ⟨if method = "" then "GET" else method, url, [], b⟩ (w.rangeOrder String header)) with
      | error err => exact Or.inr ⟨err, by simp [SendRequest, hb, NewRequest, hn, bytesOf, hd]⟩
      | ok resp =>
        cases h2 : resp.Body.err with
        | some err =>
          exact Or.inr ⟨err, by simp [SendRequest, hb, NewRequest, hn, bytesOf, hd, h2]⟩
        | none =>
          exact Or.inl ⟨_, resp, by simp [SendRequest, hb, NewRequest, hn, bytesOf, hd, h2], hd,
            h2, by simp [SendRequest, hb, NewRequest, hn, bytesOf, hd, h2]⟩
  · exact Or.inr ⟨e, by simp [SendRequest, he]⟩

/-- C8: no request helper fails in part. Each returns the whole body of a
reply read without error, with a nil error and whatever the status code, or a
nil body with an error (and a nil response, for `SendRequest`); and when the
form encoder fails, the two form helpers return its error without sending a
request. -/
theorem request_helpers_all_or_nothing (w : World) (endpoint method url : String)
    (header : GoMap String) (payload : GoValue) :
    AllOrNothing (w.Get endpoint) (GetRequest w endpoint).1
    ∧ AllOrNothing
        (w.Post endpoint "application/json" (.bytes (bytesOf (jsonMarshal payload).1)))
        (PostRequest w endpoint payload).1
    ∧ ((∃ req resp, Effect.clientDo req ∈ (SendRequest w method url header payload).2
          ∧ w.Do req = .ok resp ∧ resp.Body.err = none
          ∧ (SendRequest w method url header payload).1 =
              (some resp, some resp.Body.data, none))
        ∨ (∃ err, (SendRequest w method url header payload).1 = (none, none, some err)))
    ∧ (match w.Encode payload with
        | .error err =>
          (PostFormRequest w endpoint payload).1 = (none, some err)
          ∧ requests (PostFormRequest w endpoint payload).2 = []
          ∧ (PostMultipartFormData w endpoint payload).1 = (none, some err)
          ∧ requests (PostMultipartFormData w endpoint payload).2 = []
        | .ok form =>
          AllOrNothing (w.PostForm endpoint form) (PostFormRequest w endpoint payload).1
          ∧ AllOrNothing
              (w.Post endpoint (FormDataContentType w.boundary)
                (.multipart w.boundary (writeFields (w.rangeOrder (List String) form))))
              (PostMultipartFormData w endpoint payload).1) := by
  refine ⟨?_, ?_, SendRequest_result w method url header payload, ?_⟩
  · rw [GetRequest_result]; exact allOrNothing_outcome _
  · rw [PostRequest_result]; exact allOrNothing_outcome _
  · cases h : w.Encode payload with
    | error err => simp [PostFormRequest, PostMultipartFormData, h, requests, Effect.isRequest]
    | ok form =>
      simp only []
      rw [(PostFormRequest_result w endpoint payload form h).1,
        (PostMultipartFormData_result w endpoint payload form h).1]
      exact ⟨allOrNothing_outcome _, allOrNothing_outcome _⟩

/-! ## Theorems: form fields -/

theorem writeValues_foldl (k : String) (vs : List String) (acc : List (String × String)) :
    vs.foldl (fun written value => written ++ [(k, value)]) acc =
      acc ++ vs.map (fun v => (k, v)) := by
  induction vs generalizing acc with
  | nil => simp
  | cons v rest ih => simp [ih]

theorem writeFields_foldl (entries : Values) (acc : List (String × String)) :
    entries.foldl
        (fun written kv => kv.2.foldl (fun written value => written ++ [(kv.1, value)]) written)
        acc =
      acc ++ Values.pairs entries := by
  induction entries generalizing acc with
  | nil => simp [Values.pairs]
  | cons kv rest ih =>
    rw [List.foldl_cons, writeValues_foldl, ih]
    simp [Values.pairs]

theorem writeFields_eq_pairs (entries : Values) : writeFields entries = Values.pairs entries := by
  simp [writeFields, writeFields_foldl]

/-- C7: when the form encoder accepts the payload, `PostFormRequest` posts the
encoded `url.Values` and `PostMultipartFormData` posts a multipart body whose
fields are, as a multiset, the key/value pairs of the same `url.Values`: no
pair is dropped, added or repeated, and the two requests go to the same
endpoint and differ in body encoding and content type. -/
theorem form_helpers_send_same_fields (w : World) (endpoint : String) (payload : GoValue)
    (form : Values) (hrange : w.RangeVisitsAll) (hform : w.Encode payload = .ok form) :
    requests (PostFormRequest w endpoint payload).2 = [.httpPostForm endpoint form]
    ∧ ∃ fields : List (String × String),
        requests (PostMultipartFormData w endpoint payload).2 =
          [.httpPost endpoint (FormDataContentType w.boundary) (.multipart w.boundary fields)]
        ∧ (fields : Multiset (String × String)) = (Values.pairs form : Multiset (String × String)) := by
  refine ⟨(PostFormRequest_result w endpoint payload form hform).2,
    writeFields (w.rangeOrder (List String) form),
    (PostMultipartFormData_result w endpoint payload form hform).2, ?_⟩
  rw [Multiset.coe_eq_coe, writeFields_eq_pairs]
  exact List.Perm.flatMap_right _ (hrange (List String) form)

theorem sampleWorld_rangeVisitsAll : sampleWorld.RangeVisitsAll :=
  fun _ m => List.reverse_perm m

theorem sampleWorldForward_rangeVisitsAll : sampleWorldForward.RangeVisitsAll :=
  fun _ m => List.Perm.refl m

theorem form_helpers_send_same_fields_witness :
    sampleWorld.Encode (.object [("name", .str "ann"), ("city", .str "oslo")]) =
        .ok [("name", ["ann"]), ("city", ["oslo"])]
    ∧ requests (PostFormRequest sampleWorld "http://example.test/form"
        (.object [("name", .str "ann"), ("city", .str "oslo")])).2 =
        [.httpPostForm "http://example.test/form" [("name", ["ann"]), ("city", ["oslo"])]]
    ∧ ∃ fields : List (String × String),
        requests (PostMultipartFormData sampleWorld "http://example.test/form"
          (.object [("name", .str "ann"), ("city", .str "oslo")])).2 =
          [.httpPost "http://example.test/form" (FormDataContentType sampleWorld.boundary)
            (.multipart sampleWorld.boundary fields)]
        ∧ (fields : Multiset (String × String)) =
            (Values.pairs [("name", ["ann"]), ("city", ["oslo"])] : Multiset (String × String)) :=
  ⟨rfl,
    form_helpers_send_same_fields sampleWorld "http://example.test/form"
      (.object [("name", .str "ann"), ("city", .str "oslo")])
      [("name", ["ann"]), ("city", ["oslo"])] sampleWorld_rangeVisitsAll rfl⟩

/-! ## Theorems: request headers -/

theorem get_assign {V : Type} (m : GoMap V) (k k1 : String) (v : V) :
    GoMap.get (GoMap.assign m k v) k1 = if k = k1 then some v else GoMap.get m k1 := by
  induction m with
  | nil => simp [GoMap.assign, GoMap.get]
  | cons e rest ih =>
    obtain ⟨k2, v2⟩ := e
    by_cases h : k2 = k
    · subst h
      by_cases h1 : k2 = k1 <;> simp [GoMap.assign, GoMap.get, h1]
    · by_cases h1 : k2 = k1
      · subst h1
        simp [GoMap.assign, GoMap.get, h, Ne.symm h]
      · simp [GoMap.assign, GoMap.get, h, h1, ih]

theorem setHeaders_get (entries : GoMap String) (req : Request) (ck : String) :
    GoMap.get (setHeaders req entries).Header ck =
      match lastValue entries ck with
      | some v => some [v]
      | none => GoMap.get req.Header ck := by
  induction entries generalizing req with
  | nil => simp [setHeaders, lastValue]
  | cons kv rest ih =>
    obtain ⟨k, v⟩ := kv
    have step : setHeaders req ((k, v) :: rest) =
        setHeaders { req with Header := req.Header.Set k v } rest := rfl
    rw [step, ih, lastValue]
    cases lastValue rest ck with
    | some v1 => rfl
    | none => by_cases hk : CanonicalMIMEHeaderKey k = ck <;> simp [Header.Set, get_assign, hk]

theorem setHeaders_fields (entries : GoMap String) (req : Request) :
    (setHeaders req entries).Method = req.Method ∧ (setHeaders req entries).URL = req.URL
    ∧ (setHeaders req entries).Body = req.Body := by
  induction entries generalizing req with
  | nil => simp [setHeaders]
  | cons kv rest ih =>
    have step : setHeaders req (kv :: rest) =
        setHeaders { req with Header := req.Header.Set kv.1 kv.2 } rest := rfl
    rw [step]
    exact ih _

theorem lastValue_mem (entries : GoMap String) (ck v : String)
    (h : lastValue entries ck = some v) :
    ∃ kv ∈ entries, CanonicalMIMEHeaderKey kv.1 = ck ∧ kv.2 = v := by
  induction entries with
  | nil => simp [lastValue] at h
  | cons e rest ih =>
    obtain ⟨k1, v1⟩ := e
    rw [lastValue] at h
    cases hr : lastValue rest ck with
    | some v2 =>
      rw [hr] at h
      obtain ⟨kv, hkv, h1, h2⟩ := ih (by rw [hr]; exact h)
      exact ⟨kv, List.mem_cons_of_mem _ hkv, h1, h2⟩
    | none =>
      rw [hr] at h
      by_cases hk : CanonicalMIMEHeaderKey k1 = ck
      · simp [hk] at h
        exact ⟨(k1, v1), List.mem_cons_self _ _, hk, h⟩
      · simp [hk] at h

theorem lastValue_isSome (entries : GoMap String) (kv : String × String) (h : kv ∈ entries) :
    ∃ v, lastValue entries (CanonicalMIMEHeaderKey kv.1) = some v := by
  induction entries with
  | nil => simp at h
  | cons e rest ih =>
    obtain ⟨k1, v1⟩ := e
    rw [lastValue]
    cases hr : lastValue rest (CanonicalMIMEHeaderKey kv.1) with
    | some v2 => exact ⟨v2, rfl⟩
    | none =>
      rcases List.mem_cons.mp h with h1 | h1
      · subst h1
        exact ⟨v1, by simp⟩
      · obtain ⟨v, hv⟩ := ih h1
        rw [hr] at hv
        exact absurd hv (by simp)

theorem lastValue_of_nodup (entries : GoMap String) (kv : String × String) (h : kv ∈ entries)
    (hnodup : (entries.map (fun e => CanonicalMIMEHeaderKey e.1)).Nodup) :
    lastValue entries (CanonicalMIMEHeaderKey kv.1) = some kv.2 := by
  obtain ⟨v, hv⟩ := lastValue_isSome entries kv h
  obtain ⟨kv1, hmem, hkey, hval⟩ := lastValue_mem entries _ v hv
  have : kv1 = kv :=
    List.inj_on_of_nodup_map hnodup hmem h hkey
  rw [hv, ← hval, this]

theorem SendRequest_request (w : World) (method url : String) (header : GoMap String)
    (payload : GoValue) (b : String) (hb : jsonMarshal payload = (some b, none))
    (hreq : w.NewRequestErr method url = none) :
    requests (SendRequest w method url header payload).2 =
      [.clientDo (setHeaders ⟨if method = "" then "GET" else method, url, [], b⟩
        (w.rangeOrder String header))] := by
  cases hd : w.Do (setHeaders
      ⟨if method = "" then "GET" else method, url, [], b⟩ (w.rangeOrder String header)) with
  | error err =>
    simp [SendRequest, hb, NewRequest, hreq, bytesOf, hd, requests, Effect.isRequest]
  | ok resp =>
    cases h2 : resp.Body.err <;>
      simp [SendRequest, hb, NewRequest, hreq, bytesOf, hd, h2, requests, Effect.isRequest]

theorem setHeaders_values_of_mem (entries : GoMap String) (req : Request)
    (kv : String × String) (h : kv ∈ entries) :
    ∃ v, (setHeaders req entries).Header.Values kv.1 = [v]
      ∧ ∃ kv1 ∈ entries,
          CanonicalMIMEHeaderKey kv1.1 = CanonicalMIMEHeaderKey kv.1 ∧ kv1.2 = v := by
  obtain ⟨v, hv⟩ := lastValue_isSome entries kv h
  refine ⟨v, ?_, lastValue_mem entries _ v hv⟩
  simp [Header.Values, setHeaders_get, hv]

theorem setHeaders_values_from_entries (entries : GoMap String) (req : Request)
    (hempty : req.Header = []) (k v : String)
    (h : v ∈ (setHeaders req entries).Header.Values k) :
    ∃ kv ∈ entries, CanonicalMIMEHeaderKey kv.1 = CanonicalMIMEHeaderKey k ∧ kv.2 = v := by
  rw [Header.Values, setHeaders_get] at h
  cases hl : lastValue entries (CanonicalMIMEHeaderKey k) with
  | none => simp [hl, hempty, GoMap.get] at h
  | some v1 =>
    simp [hl] at h
    subst h
    exact lastValue_mem entries _ v hl

/-- C3, as the code has it: `SendRequest` sets a header for every entry of the
map, under the canonical form of its key. Each key of the map then has exactly
one value in the request, the value of a map key with the same canonical form;
and when no two keys of the map share a canonical form, that value is the
key's own, `header[k]`. -/
theorem SendRequest_sets_each_header (w : World) (method url : String)
    (header : GoMap String) (payload : GoValue) (b : String) (hrange : w.RangeVisitsAll)
    (hb : jsonMarshal payload = (some b, none)) (hreq : w.NewRequestErr method url = none) :
    ∃ req, requests (SendRequest w method url header payload).2 = [.clientDo req]
      ∧ (∀ kv ∈ header, ∃ v, req.Header.Values kv.1 = [v]
          ∧ ∃ kv1 ∈ header,
              CanonicalMIMEHeaderKey kv1.1 = CanonicalMIMEHeaderKey kv.1 ∧ kv1.2 = v)
      ∧ ((header.map (fun e => CanonicalMIMEHeaderKey e.1)).Nodup →
          ∀ kv ∈ header, req.Header.Values kv.1 = [kv.2]) := by
  have hperm := hrange String header
  refine ⟨_, SendRequest_request w method url header payload b hb hreq, ?_, ?_⟩
  · intro kv hkv
    obtain ⟨v, hv, kv1, hmem, hkey, hval⟩ :=
      setHeaders_values_of_mem (w.rangeOrder String header)
        ⟨if method = "" then "GET" else method, url, [], b⟩ kv (hperm.mem_iff.mpr hkv)
    exact ⟨v, hv, kv1, hperm.mem_iff.mp hmem, hkey, hval⟩
  · intro hnodup kv hkv
    have hnodup1 : ((w.rangeOrder String header).map
        (fun e => CanonicalMIMEHeaderKey e.1)).Nodup :=
      ((hperm.map _).nodup_iff).mpr hnodup
    simp [Header.Values, setHeaders_get,
      lastValue_of_nodup _ kv (hperm.mem_iff.mpr hkv) hnodup1]

theorem SendRequest_sets_each_header_witness :
    ∃ req, requests (SendRequest sampleWorld "PUT" "http://example.test/items"
        [("accept", "text/plain"), ("X-Token", "t0")] (.int 7)).2 = [.clientDo req]
      ∧ ∀ kv ∈ [("accept", "text/plain"), ("X-Token", "t0")],
          req.Header.Values kv.1 = [kv.2] := by
  obtain ⟨req, hreq, _, hall⟩ :=
    SendRequest_sets_each_header sampleWorld "PUT" "http://example.test/items"
      [("accept", "text/plain"), ("X-Token", "t0")] (.int 7) "7" sampleWorld_rangeVisitsAll
      (by decide) (by decide)
  exact ⟨req, hreq, hall (by decide)⟩

/-- C3 fails for two keys that differ only in letter case: in either visiting
order the request keeps one value under `Content-Type`, so one of the two keys
does not have its own value. -/
theorem SendRequest_case_variant_keys_counterexample :
    requests (SendRequest sampleWorldForward "GET" "http://example.test/"
        [("content-type", "text/a"), ("Content-Type", "text/b")] .null).2 =
      [.clientDo ⟨"GET", "http://example.test/", [("Content-Type", ["text/b"])], "null"⟩]
    ∧ Header.Values [("Content-Type", ["text/b"])] "content-type" ≠ ["text/a"]
    ∧ requests (SendRequest sampleWorld "GET" "http://example.test/"
        [("content-type", "text/a"), ("Content-Type", "text/b")] .null).2 =
      [.clientDo ⟨"GET", "http://example.test/", [("Content-Type", ["text/a"])], "null"⟩]
    ∧ Header.Values [("Content-Type", ["text/a"])] "Content-Type" ≠ ["text/b"] := by
  decide

/-- C4, as the code has it: the request `SendRequest` hands to `client.Do` has
the serialization of the payload as its body, and `SendRequest` adds no
`Content-Type` of its own: the request has a `Content-Type` value exactly when
the caller's map has a key with that canonical form, and the value is then the
caller's. `PostRequest`, the other JSON path, posts the same bytes with
content type `application/json`. -/
theorem SendRequest_content_type_from_caller (w : World) (method url endpoint : String)
    (header : GoMap String) (payload : GoValue) (b : String) (hrange : w.RangeVisitsAll)
    (hb : jsonMarshal payload = (some b, none)) (hreq : w.NewRequestErr method url = none) :
    (∃ req, requests (SendRequest w method url header payload).2 = [.clientDo req]
      ∧ req.Body = b
      ∧ (∀ v, v ∈ req.Header.Values "Content-Type" →
          ∃ kv ∈ header, CanonicalMIMEHeaderKey kv.1 = "Content-Type" ∧ kv.2 = v)
      ∧ ((∀ kv ∈ header, CanonicalMIMEHeaderKey kv.1 ≠ "Content-Type") →
          req.Header.Values "Content-Type" = [])
      ∧ (∀ kv ∈ header, CanonicalMIMEHeaderKey kv.1 = "Content-Type" →
          ∃ v, req.Header.Values "Content-Type" = [v]))
    ∧ requests (PostRequest w endpoint payload).2 =
        [.httpPost endpoint "application/json" (.bytes b)] := by
  have hperm := hrange String header
  have hcanon : CanonicalMIMEHeaderKey "Content-Type" = "Content-Type" := by decide
  have hfrom : ∀ v, v ∈ (setHeaders ⟨if method = "" then "GET" else method, url, [], b⟩
      (w.rangeOrder String header)).Header.Values "Content-Type" →
      ∃ kv ∈ header, CanonicalMIMEHeaderKey kv.1 = "Content-Type" ∧ kv.2 = v := by
    intro v hv
    obtain ⟨kv, hmem, hkey, hval⟩ :=
      setHeaders_values_from_entries _ _ rfl "Content-Type" v hv
    exact ⟨kv, hperm.mem_iff.mp hmem, by rw [hkey, hcanon], hval⟩
  refine ⟨⟨_, SendRequest_request w method url header payload b hb hreq, ?_, hfrom, ?_, ?_⟩, ?_⟩
  · exact (setHeaders_fields _ _).2.2
  · intro hno
    apply List.eq_nil_iff_forall_not_mem.mpr
    intro v hv
    obtain ⟨kv, hmem, hkey, _⟩ := hfrom v hv
    exact hno kv hmem hkey
  · intro kv hkv hkey
    obtain ⟨v, hv, _⟩ :=
      setHeaders_values_of_mem (w.rangeOrder String header)
        ⟨if method = "" then "GET" else method, url, [], b⟩ kv (hperm.mem_iff.mpr hkv)
    refine ⟨v, ?_⟩
    simp only [Header.Values, hcanon] at hv ⊢
    rw [← hkey]
    exact hv
  · rw [PostRequest_requests, hb]
    rfl

theorem SendRequest_content_type_from_caller_witness :
    (∃ req, requests (SendRequest sampleWorld "POST" "http://example.test/items"
        [("Authorization", "t0")] (.object [("name", .str "ann")])).2 = [.clientDo req]
      ∧ req.Body = "\x7b\"name\":\"ann\"\x7d"
      ∧ (∀ v, v ∈ req.Header.Values "Content-Type" →
          ∃ kv ∈ [("Authorization", "t0")],
            CanonicalMIMEHeaderKey kv.1 = "Content-Type" ∧ kv.2 = v)
      ∧ ((∀ kv ∈ [("Authorization", "t0")], CanonicalMIMEHeaderKey kv.1 ≠ "Content-Type") →
          req.Header.Values "Content-Type" = [])
      ∧ (∀ kv ∈ [("Authorization", "t0")], CanonicalMIMEHeaderKey kv.1 = "Content-Type" →
          ∃ v, req.Header.Values "Content-Type" = [v]))
    ∧ requests (PostRequest sampleWorld "http://example.test/items"
        (.object [("name", .str "ann")])).2 =
        [.httpPost "http://example.test/items" "application/json"
          (.bytes "\x7b\"name\":\"ann\"\x7d")] :=
  SendRequest_content_type_from_caller sampleWorld "POST" "http://example.test/items"
    "http://example.test/items" [("Authorization", "t0")] (.object [("name", .str "ann")])
    "\x7b\"name\":\"ann\"\x7d" sampleWorld_rangeVisitsAll (by decide) (by decide)

/-- C4 fails: with an empty header map the request `SendRequest` sends has a
JSON body and no `Content-Type` header, while `PostRequest` posts the same
payload as `application/json`. -/
theorem SendRequest_content_type_counterexample :
    requests (SendRequest sampleWorld "POST" "http://example.test/items" []
        (.object [("name", .str "ann")])).2 =
      [.clientDo ⟨"POST", "http://example.test/items", [], "\x7b\"name\":\"ann\"\x7d"⟩]
    ∧ Header.Values [] "Content-Type" = []
    ∧ requests (PostRequest sampleWorld "http://example.test/items"
        (.object [("name", .str "ann")])).2 =
      [.httpPost "http://example.test/items" "application/json"
        (.bytes "\x7b\"name\":\"ann\"\x7d")] := by
  decide

/-! ## Theorems: decoding what `json.Marshal` wrote -/

theorem digitChar_spec (d : Nat) (h : d < 10) :
    isDigit (digitChar d) = true ∧ (digitChar d).toNat - 48 = d
      ∧ (digitChar d = '0' → d = 0) := by
  interval_cases d <;> decide

theorem natDigitsAux_acc (fuel n : Nat) (acc : List Char) :
    natDigitsAux fuel n acc = natDigitsAux fuel n [] ++ acc := by
  induction fuel generalizing n acc with
  | zero => simp [natDigitsAux]
  | succ fuel ih =>
    by_cases h : n < 10
    · simp [natDigitsAux, h]
    · simp only [natDigitsAux, h, if_false]
      rw [ih (n / 10) (digitChar (n % 10) :: acc), ih (n / 10) [digitChar (n % 10)]]
      simp

/-- The digits written for `n`: all decimal digits, of value `n`, not empty,
and with a leading zero only for `0` itself. -/
theorem natDigitsAux_spec (fuel n : Nat) (h : n < fuel) :
    (∀ c ∈ natDigitsAux fuel n [], isDigit c = true)
    ∧ (natDigitsAux fuel n []).foldl (fun a c => a * 10 + (c.toNat - 48)) 0 = n
    ∧ ∃ c t, natDigitsAux fuel n [] = c :: t ∧ isDigit c = true
        ∧ (c = '0' → n = 0 ∧ t = []) := by
  induction fuel generalizing n with
  | zero => omega
  | succ fuel ih =>
    by_cases h10 : n < 10
    · obtain ⟨hd, hv, hz⟩ := digitChar_spec n h10
      simp only [natDigitsAux, h10, if_true]
      refine ⟨by simpa using hd, by simpa using hv, digitChar n, [], rfl, hd, fun h0 => ⟨hz h0, rfl⟩⟩
    · obtain ⟨hd, hv, _⟩ := digitChar_spec (n % 10) (Nat.mod_lt _ (by omega))
      obtain ⟨hall, hval, c, t, hct, hc, hzero⟩ := ih (n / 10) (by omega)
      simp only [natDigitsAux, h10, if_false]
      rw [natDigitsAux_acc]
      refine ⟨?_, ?_, c, t ++ [digitChar (n % 10)], by rw [hct]; rfl, hc, ?_⟩
      · intro x hx
        rcases List.mem_append.mp hx with hx | hx
        · exact hall x hx
        · rw [List.mem_singleton.mp hx]; exact hd
      · rw [List.foldl_append, hval]
        simp only [List.foldl_cons, List.foldl_nil, hv]
        omega
      · intro h0
        have := (hzero h0).1
        omega

theorem decodeDigits_append (ds rest : List Char) (a : Nat)
    (h : ∀ c ∈ ds, isDigit c = true) :
    decodeDigits a (ds ++ rest) =
      decodeDigits (ds.foldl (fun a c => a * 10 + (c.toNat - 48)) a) rest := by
  induction ds generalizing a with
  | nil => rfl
  | cons c cs ih =>
    have hc : isDigit c = true := h c (List.mem_cons_self _ _)
    simp only [List.cons_append, decodeDigits, hc, if_true, List.foldl_cons]
    exact ih _ (fun x hx => h x (List.mem_cons_of_mem _ hx))

theorem decodeNat_natDigits (n : Nat) (rest : List Char) (hrest : Closes rest) :
    decodeNat (natDigits n ++ rest) = some (n, rest) := by
  obtain ⟨hall, hval, c, t, hct, hc, hzero⟩ := natDigitsAux_spec (n + 1) n (by omega)
  have hstop : decodeDigits n rest = (n, rest) := by
    rcases hrest with rfl | ⟨d, t1, rfl, hd⟩
    · rfl
    · have : isDigit d = false := by rcases hd with rfl | rfl | rfl <;> decide
      simp [decodeDigits, this]
  have hend : ∀ r : Nat × List Char, r.2 = rest →
      (match r.2 with
        | [] => some r
        | d :: _ => if isDigit d || continuesNumber r.2 then none else some r) = some r := by
    intro r hr
    rcases hrest with rfl | ⟨d, t1, rfl, hd⟩
    · rw [hr]
    · rw [hr]
      have : (isDigit d || continuesNumber (d :: t1)) = false := by
        rcases hd with rfl | rfl | rfl <;> rfl
      simp [this]
  unfold natDigits
  rw [hct] at hall hval ⊢
  simp only [List.cons_append, decodeNat, hc, if_true]
  by_cases h0 : c = '0'
  · obtain ⟨hn, ht⟩ := hzero h0
    subst hn ht
    simp only [h0, if_true, List.nil_append]
    exact hend (0, rest) rfl
  · simp only [h0, if_false]
    have hdd : decodeDigits 0 (c :: (t ++ rest)) = (n, rest) := by
      have := decodeDigits_append (c :: t) rest 0 hall
      rw [hval, hstop] at this
      exact this
    rw [hdd]
    exact hend (n, rest) rfl

theorem hexVal_hexChar (x : Nat) (h : x < 16) : hexVal (hexChar x) = some x := by
  interval_cases x <;> rfl

theorem decodeString_unicode (a b c d : Nat) (ha : a < 16) (hb : b < 16) (hc : c < 16)
    (hd : d < 16) (tail : List Char)
    (hn : ¬ (55296 ≤ ((a * 16 + b) * 16 + c) * 16 + d ∧ ((a * 16 + b) * 16 + c) * 16 + d ≤ 57343)) :
    decodeString ('\\' :: 'u' :: hexChar a :: hexChar b :: hexChar c :: hexChar d :: tail) =
      (decodeString tail).map
        (fun r => (Char.ofNat (((a * 16 + b) * 16 + c) * 16 + d) :: r.1, r.2)) := by
  have h1 : ('\\' : Char) ≠ '"' := by decide
  rw [decodeString]
  simp only [h1, if_false, if_true, hexVal_hexChar, ha, hb, hc, hd, hn]

theorem decodeString_short (e ch : Char) (tail : List Char) (he : e ≠ 'u')
    (hu : unescape e = some ch) :
    decodeString ('\\' :: e :: tail) = (decodeString tail).map (fun r => (ch :: r.1, r.2)) := by
  have h1 : ('\\' : Char) ≠ '"' := by decide
  rw [decodeString.eq_def]
  simp only [h1, if_false, if_true, he, hu]

theorem decodeString_plain (c : Char) (tail : List Char) (h1 : c ≠ '"') (h2 : c ≠ '\\')
    (h3 : ¬ c.toNat < 32) :
    decodeString (c :: tail) = (decodeString tail).map (fun r => (c :: r.1, r.2)) := by
  rw [decodeString.eq_def]
  simp only [h1, h2, h3, if_false]

theorem decodeString_escapeChar (c : Char) (tail : List Char) :
    decodeString (escapeChar c ++ tail) =
      (decodeString tail).map (fun r => (c :: r.1, r.2)) := by
  unfold escapeChar
  by_cases h1 : c = '"' ∨ c = '\\'
  · rw [if_pos h1]
    rcases h1 with rfl | rfl
    · exact decodeString_short _ _ tail (by decide) (by decide)
    · exact decodeString_short _ _ tail (by decide) (by decide)
  rw [if_neg h1]
  by_cases h2 : c = '\n'
  · rw [if_pos h2, h2]
    exact decodeString_short _ _ tail (by decide) (by decide)
  rw [if_neg h2]
  by_cases h3 : c = '\r'
  · rw [if_pos h3, h3]
    exact decodeString_short _ _ tail (by decide) (by decide)
  rw [if_neg h3]
  by_cases h4 : c = '\t'
  · rw [if_pos h4, h4]
    exact decodeString_short _ _ tail (by decide) (by decide)
  rw [if_neg h4]
  by_cases h5 : c.toNat < 32 ∨ c = '<' ∨ c = '>' ∨ c = '&'
  · rw [if_pos h5]
    have hlt : c.toNat < 256 := by
      rcases h5 with h | rfl | rfl | rfl
      · omega
      · decide
      · decide
      · decide
    have := decodeString_unicode 0 0 (c.toNat / 16) (c.toNat % 16) (by omega) (by omega)
      (by omega) (by omega) tail (by omega)
    have hval : ((0 * 16 + 0) * 16 + c.toNat / 16) * 16 + c.toNat % 16 = c.toNat := by omega
    rw [hval, Char.ofNat_toNat] at this
    exact this
  rw [if_neg h5]
  by_cases h6 : c.toNat = 8232 ∨ c.toNat = 8233
  · rw [if_pos h6]
    have := decodeString_unicode 2 0 2 (c.toNat % 16) (by omega) (by omega)
      (by omega) (by omega) tail (by omega)
    have hval : ((2 * 16 + 0) * 16 + 2) * 16 + c.toNat % 16 = c.toNat := by omega
    rw [hval, Char.ofNat_toNat] at this
    exact this
  rw [if_neg h6]
  exact decodeString_plain c tail (fun h => h1 (Or.inl h)) (fun h => h1 (Or.inr h))
    (fun h => h5 (Or.inl h))

theorem decodeString_escapeChars (s rest : List Char) :
    decodeString (escapeChars s ++ '"' :: rest) = some (s, rest) := by
  induction s with
  | nil =>
    rw [escapeChars, List.nil_append, decodeString.eq_def]
    simp
  | cons c cs ih =>
    rw [escapeChars, List.append_assoc, decodeString_escapeChar, ih]
    rfl

theorem skipSpace_cons (c : Char) (t : List Char) (h : isSpace c = false) :
    skipSpace (c :: t) = c :: t := by
  simp [skipSpace, h]

theorem isDigit_not_special (c : Char) (h : isDigit c = true) :
    isSpace c = false ∧ c ≠ 'n' ∧ c ≠ 't' ∧ c ≠ 'f' ∧ c ≠ '"' ∧ c ≠ '[' ∧ c ≠ '\x7b'
      ∧ c ≠ '-' ∧ c ≠ ']' ∧ c ≠ '\x7d' := by
  have hne : ∀ d : Char, isDigit d = false → c ≠ d := by
    intro d hd hcd
    rw [hcd, hd] at h
    exact Bool.noConfusion h
  refine ⟨?_, hne _ (by decide), hne _ (by decide), hne _ (by decide), hne _ (by decide),
    hne _ (by decide), hne _ (by decide), hne _ (by decide), hne _ (by decide),
    hne _ (by decide)⟩
  have h1 := hne ' ' (by decide)
  have h2 := hne '\t' (by decide)
  have h3 := hne '\n' (by decide)
  have h4 := hne '\r' (by decide)
  simp [isSpace, h1, h2, h3, h4]

theorem encodeElems_cons_some (v : GoValue) (vs : List GoValue) (body : List Char)
    (h : encodeElems (v :: vs) = some body) :
    ∃ a b, encodeValue v = some a ∧ encodeElems vs = some b
      ∧ body = if vs.isEmpty then a else a ++ ',' :: b := by
  rw [encodeElems] at h
  cases ha : encodeValue v with
  | none => simp [ha] at h
  | some a =>
    cases hb : encodeElems vs with
    | none => simp [ha, hb] at h
    | some b =>
      simp only [ha, hb, Option.some.injEq] at h
      exact ⟨a, b, rfl, rfl, h.symm⟩

theorem encodeFields_cons_some (k : String) (v : GoValue) (fs : List (String × GoValue))
    (body : List Char) (h : encodeFields ((k, v) :: fs) = some body) :
    ∃ a b, encodeValue v = some a ∧ encodeFields fs = some b
      ∧ body = if fs.isEmpty then quote k ++ ':' :: a else quote k ++ ':' :: (a ++ ',' :: b) := by
  rw [encodeFields] at h
  cases ha : encodeValue v with
  | none => simp [ha] at h
  | some a =>
    cases hb : encodeFields fs with
    | none => simp [ha, hb] at h
    | some b =>
      simp only [ha, hb, Option.some.injEq] at h
      exact ⟨a, b, rfl, rfl, h.symm⟩

/-- The text of a value starts with a character that is neither white space
nor a closing bracket. -/
theorem encodeValue_head (v : GoValue) (b : List Char) (h : encodeValue v = some b) :
    ∃ c t, b = c :: t ∧ isSpace c = false ∧ c ≠ ']' ∧ c ≠ '\x7d' := by
  cases v with
  | null =>
    simp only [encodeValue, Option.some.injEq] at h
    exact ⟨_, _, h.symm, by decide, by decide, by decide⟩
  | bool x =>
    cases x <;> simp only [encodeValue, Option.some.injEq] at h <;>
      exact ⟨_, _, h.symm, by decide, by decide, by decide⟩
  | int n =>
    simp only [encodeValue, Option.some.injEq] at h
    cases n with
    | ofNat m =>
      obtain ⟨_, _, c, t, hct, hc, _⟩ := natDigitsAux_spec (m + 1) m (by omega)
      obtain ⟨h1, _, _, _, _, _, _, _, h9, h10⟩ := isDigit_not_special c hc
      exact ⟨c, t, by rw [← h, ← hct]; rfl, h1, h9, h10⟩
    | negSucc m => exact ⟨_, _, h.symm, by decide, by decide, by decide⟩
  | str x =>
    simp only [encodeValue, Option.some.injEq] at h
    exact ⟨_, _, h.symm, by decide, by decide, by decide⟩
  | slice xs =>
    simp only [encodeValue, Option.map_eq_some'] at h
    obtain ⟨a, _, ha⟩ := h
    exact ⟨_, _, ha.symm, by decide, by decide, by decide⟩
  | object fs =>
    simp only [encodeValue, Option.map_eq_some'] at h
    obtain ⟨a, _, ha⟩ := h
    exact ⟨_, _, ha.symm, by decide, by decide, by decide⟩
  | chan => simp [encodeValue] at h

theorem encodeElems_head (xs : List GoValue) (b : List Char) (h : encodeElems xs = some b)
    (hne : xs ≠ []) : ∃ c t, b = c :: t ∧ isSpace c = false ∧ c ≠ ']' := by
  cases xs with
  | nil => exact absurd rfl hne
  | cons v vs =>
    obtain ⟨a, b1, ha, _, hbody⟩ := encodeElems_cons_some v vs b h
    obtain ⟨c, t, hct, h1, h2, _⟩ := encodeValue_head v a ha
    subst hct hbody
    by_cases he : vs.isEmpty = true
    · exact ⟨c, t, by simp [he], h1, h2⟩
    · exact ⟨c, t ++ ',' :: b1, by simp [he], h1, h2⟩

theorem encodeFields_head (fs : List (String × GoValue)) (b : List Char)
    (h : encodeFields fs = some b) (hne : fs ≠ []) : ∃ t, b = '"' :: t := by
  cases fs with
  | nil => exact absurd rfl hne
  | cons kv rest =>
    obtain ⟨a, b1, _, _, hbody⟩ := encodeFields_cons_some kv.1 kv.2 rest b h
    subst hbody
    by_cases he : rest.isEmpty = true
    · exact ⟨_, by simp [he, quote]; rfl⟩
    · exact ⟨_, by simp [he, quote]; rfl⟩

mutual
theorem decodeValue_encodeValue : ∀ (v : GoValue) (b rest : List Char) (fuel : Nat),
    encodeValue v = some b → b.length < fuel → Closes rest →
    decodeValue fuel (b ++ rest) = some (v, rest)
  | .null, b, rest, fuel, hb, hf, _ => by
    obtain ⟨f, rfl⟩ : ∃ f, fuel = f + 1 := ⟨fuel - 1, by omega⟩
    simp only [encodeValue, Option.some.injEq] at hb
    subst hb
    simp [decodeValue, skipSpace, isSpace, expect]
  | .bool true, b, rest, fuel, hb, hf, _ => by
    obtain ⟨f, rfl⟩ : ∃ f, fuel = f + 1 := ⟨fuel - 1, by omega⟩
    simp only [encodeValue, Option.some.injEq] at hb
    subst hb
    simp [decodeValue, skipSpace, isSpace, expect]
  | .bool false, b, rest, fuel, hb, hf, _ => by
    obtain ⟨f, rfl⟩ : ∃ f, fuel = f + 1 := ⟨fuel - 1, by omega⟩
    simp only [encodeValue, Option.some.injEq] at hb
    subst hb
    simp [decodeValue, skipSpace, isSpace, expect]
  | .int n, b, rest, fuel, hb, hf, hr => by
    obtain ⟨f, rfl⟩ : ∃ f, fuel = f + 1 := ⟨fuel - 1, by omega⟩
    simp only [encodeValue, Option.some.injEq] at hb
    subst hb
    cases n with
    | ofNat m =>
      obtain ⟨_, _, c, t, hct, hc, _⟩ := natDigitsAux_spec (m + 1) m (by omega)
      obtain ⟨h1, h2, h3, h4, h5, h6, h7, h8, _, _⟩ := isDigit_not_special c hc
      have hdec := decodeNat_natDigits m rest hr
      have hnd : natDigits m = c :: t := hct
      show decodeValue (f + 1) (natDigits m ++ rest) = _
      rw [hnd, List.cons_append] at hdec ⊢
      rw [decodeValue, skipSpace_cons _ _ h1]
      simp only [h2, h3, h4, h5, h6, h7, h8, if_false, hdec]
      rfl
    | negSucc m =>
      have hdec := decodeNat_natDigits (m + 1) rest hr
      show decodeValue (f + 1) ('-' :: natDigits (m + 1) ++ rest) = _
      rw [List.cons_append, decodeValue, skipSpace_cons _ _ (by decide)]
      simp only [hdec, Option.map_some', show ('-' : Char) ≠ 'n' by decide,
        show ('-' : Char) ≠ 't' by decide, show ('-' : Char) ≠ 'f' by decide,
        show ('-' : Char) ≠ '"' by decide, show ('-' : Char) ≠ '[' by decide,
        show ('-' : Char) ≠ '\x7b' by decide, if_false, if_true]
      rfl
  | .str s, b, rest, fuel, hb, hf, _ => by
    obtain ⟨f, rfl⟩ : ∃ f, fuel = f + 1 := ⟨fuel - 1, by omega⟩
    simp only [encodeValue, Option.some.injEq] at hb
    subst hb
    show decodeValue (f + 1) ('"' :: (escapeChars s.data ++ ['"']) ++ rest) = _
    rw [List.cons_append, List.append_assoc, decodeValue, skipSpace_cons _ _ (by decide)]
    simp [decodeString_escapeChars]
  | .slice xs, b, rest, fuel, hb, hf, _ => by
    obtain ⟨f, rfl⟩ : ∃ f, fuel = f + 1 := ⟨fuel - 1, by omega⟩
    simp only [encodeValue, Option.map_eq_some'] at hb
    obtain ⟨body, hbody, rfl⟩ := hb
    rw [List.cons_append, List.append_assoc, decodeValue, skipSpace_cons _ _ (by decide)]
    by_cases hxs : xs = []
    · subst hxs
      simp only [encodeElems, Option.some.injEq] at hbody
      subst hbody
      simp [skipSpace, isSpace]
    · obtain ⟨c, t, hct, h1, h2⟩ := encodeElems_head xs body hbody hxs
      have hrec := decodeElems_encodeElems xs body rest f hxs hbody
        (by simp at hf; omega)
      simp only [List.singleton_append] at hrec ⊢
      rw [hrec]
      subst hct
      simp [skipSpace_cons _ _ h1, h2]
  | .object fs, b, rest, fuel, hb, hf, _ => by
    obtain ⟨f, rfl⟩ : ∃ f, fuel = f + 1 := ⟨fuel - 1, by omega⟩
    simp only [encodeValue, Option.map_eq_some'] at hb
    obtain ⟨body, hbody, rfl⟩ := hb
    rw [List.cons_append, List.append_assoc, decodeValue, skipSpace_cons _ _ (by decide)]
    by_cases hfs : fs = []
    · subst hfs
      simp only [encodeFields, Option.some.injEq] at hbody
      subst hbody
      simp [skipSpace, isSpace]
    · obtain ⟨t, hct⟩ := encodeFields_head fs body hbody hfs
      have hrec := decodeFields_encodeFields fs body rest f hfs hbody
        (by simp at hf; omega)
      simp only [List.singleton_append] at hrec ⊢
      rw [hrec]
      subst hct
      simp [skipSpace_cons _ _ (show isSpace '"' = false by decide)]
  | .chan, b, rest, fuel, hb, _, _ => by
    simp [encodeValue] at hb
theorem decodeElems_encodeElems : ∀ (xs : List GoValue) (b rest : List Char) (fuel : Nat),
    xs ≠ [] → encodeElems xs = some b → b.length + 1 < fuel →
    decodeElems fuel (b ++ ']' :: rest) = some (xs, rest)
  | [], _, _, _, hne, _, _ => absurd rfl hne
  | v :: vs, b, rest, fuel, _, hb, hf => by
    obtain ⟨f, rfl⟩ : ∃ f, fuel = f + 1 := ⟨fuel - 1, by omega⟩
    obtain ⟨a, b1, ha, hb1, hbody⟩ := encodeElems_cons_some v vs b hb
    by_cases hvs : vs = []
    · subst hvs
      simp only [List.isEmpty_nil, if_true] at hbody
      rw [hbody] at hf ⊢
      have hv := decodeValue_encodeValue v a (']' :: rest) f ha (by omega)
        (Or.inr ⟨_, _, rfl, Or.inr (Or.inl rfl)⟩)
      rw [decodeElems, hv]
      simp [skipSpace, isSpace]
    · have he : vs.isEmpty = false := by
        cases vs with
        | nil => exact absurd rfl hvs
        | cons _ _ => rfl
      simp only [he, Bool.false_eq_true, if_false] at hbody
      rw [hbody] at hf ⊢
      have hv := decodeValue_encodeValue v a (',' :: (b1 ++ ']' :: rest)) f ha
        (by simp at hf; omega) (Or.inr ⟨_, _, rfl, Or.inl rfl⟩)
      have hrec := decodeElems_encodeElems vs b1 rest f hvs hb1 (by simp at hf; omega)
      rw [List.append_assoc, List.cons_append, decodeElems, hv]
      simp [skipSpace, isSpace, hrec]
theorem decodeFields_encodeFields : ∀ (fs : List (String × GoValue)) (b rest : List Char)
    (fuel : Nat), fs ≠ [] → encodeFields fs = some b → b.length + 1 < fuel →
    decodeFields fuel (b ++ '\x7d' :: rest) = some (fs, rest)
  | [], _, _, _, hne, _, _ => absurd rfl hne
  | (k, v) :: fs, b, rest, fuel, _, hb, hf => by
    obtain ⟨f, rfl⟩ : ∃ f, fuel = f + 1 := ⟨fuel - 1, by omega⟩
    obtain ⟨a, b1, ha, hb1, hbody⟩ := encodeFields_cons_some k v fs b hb
    by_cases hfs : fs = []
    · subst hfs
      simp only [List.isEmpty_nil, if_true] at hbody
      rw [hbody] at hf ⊢
      have hlen : a.length < f := by
        simp [quote] at hf
        omega
      have hv := decodeValue_encodeValue v a ('\x7d' :: rest) f ha hlen
        (Or.inr ⟨_, _, rfl, Or.inr (Or.inr rfl)⟩)
      have hshape : (quote k ++ ':' :: a) ++ '\x7d' :: rest =
          '"' :: (escapeChars k.data ++ '"' :: ':' :: (a ++ '\x7d' :: rest)) := by
        simp [quote]
      rw [hshape, decodeFields, skipSpace_cons _ _ (by decide)]
      simp [decodeString_escapeChars, skipSpace, isSpace, hv]
    · have he : fs.isEmpty = false := by
        cases fs with
        | nil => exact absurd rfl hfs
        | cons _ _ => rfl
      simp only [he, Bool.false_eq_true, if_false] at hbody
      rw [hbody] at hf ⊢
      have hlen : a.length < f ∧ b1.length + 1 < f := by
        simp [quote] at hf
        omega
      have hv := decodeValue_encodeValue v a (',' :: (b1 ++ '\x7d' :: rest)) f ha hlen.1
        (Or.inr ⟨_, _, rfl, Or.inl rfl⟩)
      have hrec := decodeFields_encodeFields fs b1 rest f hfs hb1 hlen.2
      have hshape : (quote k ++ ':' :: (a ++ ',' :: b1)) ++ '\x7d' :: rest =
          '"' :: (escapeChars k.data ++ '"' :: ':' :: (a ++ ',' :: (b1 ++ '\x7d' :: rest))) := by
        simp [quote]
      rw [hshape, decodeFields, skipSpace_cons _ _ (by decide)]
      simp [decodeString_escapeChars, skipSpace, isSpace, hv, hrec]
end

theorem jsonDecode_of_encode (v : GoValue) (b : List Char) (h : encodeValue v = some b) :
    jsonDecode (String.mk b) = some v := by
  have := decodeValue_encodeValue v b [] (b.length + 1) h (by omega) (Or.inl rfl)
  rw [List.append_nil] at this
  simp [jsonDecode, this, skipSpace]

theorem encode_of_jsonMarshal {v : GoValue} {s : String} (h : jsonMarshal v = (some s, none)) :
    encodeValue v = some s.data := by
  cases hv : encodeValue v with
  | none => simp [jsonMarshal, hv] at h
  | some b =>
    simp only [jsonMarshal, hv, Prod.mk.injEq, Option.some.injEq, and_true] at h
    rw [← h]

theorem jsonDecode_jsonMarshal (v : GoValue) (s : String) (h : jsonMarshal v = (some s, none)) :
    jsonDecode s = some v :=
  jsonDecode_of_encode v s.data (encode_of_jsonMarshal h)

theorem envelope_encode (p : ResponseJSON) (d : List Char) (h : encodeValue p.Data = some d) :
    ∃ b, encodeValue p.toValue = some b := by
  obtain ⟨success, code, message, count, data⟩ := p
  simp only at h
  rcases success with _ | _ | _ <;> rcases count with _ | n <;>
    simp [ResponseJSON.toValue, ResponseJSON.fields, encodeValue, encodeFields, h]

mutual
theorem unmarshalValue_encodeValue {F : Type} (parseFloat : List Char → Option F) :
    ∀ (v : GoValue) (b rest : List Char) (fuel : Nat),
    JSONSafe v = true → encodeValue v = some b → b.length < fuel →
    ∃ d, unmarshalValue parseFloat fuel (b ++ rest) = some (d, rest) ∧ DeepEqual v d = true
  | .null, b, rest, fuel, _, hb, hf => by
    obtain ⟨f, rfl⟩ : ∃ f, fuel = f + 1 := ⟨fuel - 1, by omega⟩
    simp only [encodeValue, Option.some.injEq] at hb
    subst hb
    exact ⟨.null, by simp [unmarshalValue, skipSpace, isSpace, expect], rfl⟩
  | .bool true, b, rest, fuel, _, hb, hf => by
    obtain ⟨f, rfl⟩ : ∃ f, fuel = f + 1 := ⟨fuel - 1, by omega⟩
    simp only [encodeValue, Option.some.injEq] at hb
    subst hb
    exact ⟨.bool true, by simp [unmarshalValue, skipSpace, isSpace, expect], rfl⟩
  | .bool false, b, rest, fuel, _, hb, hf => by
    obtain ⟨f, rfl⟩ : ∃ f, fuel = f + 1 := ⟨fuel - 1, by omega⟩
    simp only [encodeValue, Option.some.injEq] at hb
    subst hb
    exact ⟨.bool false, by simp [unmarshalValue, skipSpace, isSpace, expect], rfl⟩
  | .str s, b, rest, fuel, _, hb, hf => by
    obtain ⟨f, rfl⟩ : ∃ f, fuel = f + 1 := ⟨fuel - 1, by omega⟩
    simp only [encodeValue, Option.some.injEq] at hb
    subst hb
    refine ⟨.str s, ?_, by simp [DeepEqual]⟩
    show unmarshalValue parseFloat (f + 1) ('"' :: (escapeChars s.data ++ ['"']) ++ rest) = _
    rw [List.cons_append, List.append_assoc, unmarshalValue, skipSpace_cons _ _ (by decide)]
    simp [decodeString_escapeChars]
  | .slice xs, b, rest, fuel, hsafe, hb, hf => by
    obtain ⟨f, rfl⟩ : ∃ f, fuel = f + 1 := ⟨fuel - 1, by omega⟩
    simp only [encodeValue, Option.map_eq_some'] at hb
    obtain ⟨body, hbody, rfl⟩ := hb
    rw [List.cons_append, List.append_assoc, unmarshalValue, skipSpace_cons _ _ (by decide)]
    by_cases hxs : xs = []
    · subst hxs
      simp only [encodeElems, Option.some.injEq] at hbody
      subst hbody
      exact ⟨.slice [], by simp [skipSpace, isSpace], rfl⟩
    · obtain ⟨c, t, hct, h1, h2⟩ := encodeElems_head xs body hbody hxs
      obtain ⟨ds, hrec, heq⟩ := unmarshalElems_encodeElems parseFloat xs body rest f hxs
        (by simpa [JSONSafe] using hsafe) hbody (by simp at hf; omega)
      refine ⟨.slice ds, ?_, by simpa [DeepEqual] using heq⟩
      simp only [List.singleton_append] at hrec ⊢
      rw [hrec]
      subst hct
      simp [skipSpace_cons _ _ h1, h2]
  | .int _, _, _, _, hsafe, _, _ => by simp [JSONSafe] at hsafe
  | .object _, _, _, _, hsafe, _, _ => by simp [JSONSafe] at hsafe
  | .chan, _, _, _, hsafe, _, _ => by simp [JSONSafe] at hsafe
theorem unmarshalElems_encodeElems {F : Type} (parseFloat : List Char → Option F) :
    ∀ (xs : List GoValue) (b rest : List Char) (fuel : Nat),
    xs ≠ [] → JSONSafeList xs = true → encodeElems xs = some b → b.length + 1 < fuel →
    ∃ ds, unmarshalElems parseFloat fuel (b ++ ']' :: rest) = some (ds, rest)
      ∧ DeepEqualList xs ds = true
  | [], _, _, _, hne, _, _, _ => absurd rfl hne
  | v :: vs, b, rest, fuel, _, hsafe, hb, hf => by
    obtain ⟨f, rfl⟩ : ∃ f, fuel = f + 1 := ⟨fuel - 1, by omega⟩
    obtain ⟨a, b1, ha, hb1, hbody⟩ := encodeElems_cons_some v vs b hb
    have hsafe1 : JSONSafe v = true ∧ JSONSafeList vs = true := by
      simpa [JSONSafeList] using hsafe
    by_cases hvs : vs = []
    · subst hvs
      simp only [List.isEmpty_nil, if_true] at hbody
      rw [hbody] at hf ⊢
      obtain ⟨d, hv, hd⟩ := unmarshalValue_encodeValue parseFloat v a (']' :: rest) f
        hsafe1.1 ha (by omega)
      refine ⟨[d], ?_, by simp [DeepEqualList, hd]⟩
      rw [unmarshalElems, hv]
      simp [skipSpace, isSpace]
    · have he : vs.isEmpty = false := by
        cases vs with
        | nil => exact absurd rfl hvs
        | cons _ _ => rfl
      simp only [he, Bool.false_eq_true, if_false] at hbody
      rw [hbody] at hf ⊢
      obtain ⟨d, hv, hd⟩ := unmarshalValue_encodeValue parseFloat v a
        (',' :: (b1 ++ ']' :: rest)) f hsafe1.1 ha (by simp at hf; omega)
      obtain ⟨ds, hrec, hds⟩ := unmarshalElems_encodeElems parseFloat vs b1 rest f hvs
        hsafe1.2 hb1 (by simp at hf; omega)
      refine ⟨d :: ds, ?_, by simp [DeepEqualList, hd, hds]⟩
      rw [List.append_assoc, List.cons_append, unmarshalElems, hv]
      simp [skipSpace, isSpace, hrec]
end

mutual
theorem encodeValue_of_jsonSafe : ∀ (v : GoValue), JSONSafe v = true →
    ∃ b, encodeValue v = some b
  | .null, _ => ⟨_, rfl⟩
  | .bool true, _ => ⟨_, rfl⟩
  | .bool false, _ => ⟨_, rfl⟩
  | .str _, _ => ⟨_, rfl⟩
  | .slice xs, h => by
    obtain ⟨b, hb⟩ := encodeElems_of_jsonSafe xs (by simpa [JSONSafe] using h)
    exact ⟨'[' :: (b ++ [']']), by simp [encodeValue, hb]⟩
  | .int _, h => by simp [JSONSafe] at h
  | .object _, h => by simp [JSONSafe] at h
  | .chan, h => by simp [JSONSafe] at h
theorem encodeElems_of_jsonSafe : ∀ (xs : List GoValue), JSONSafeList xs = true →
    ∃ b, encodeElems xs = some b
  | [], _ => ⟨_, rfl⟩
  | v :: vs, h => by
    have h1 : JSONSafe v = true ∧ JSONSafeList vs = true := by simpa [JSONSafeList] using h
    obtain ⟨a, ha⟩ := encodeValue_of_jsonSafe v h1.1
    obtain ⟨b, hb⟩ := encodeElems_of_jsonSafe vs h1.2
    exact ⟨_, by rw [encodeElems, ha, hb]⟩
end

mutual
/-- Only a JSON-safe payload is deep-equal to a value `json.Unmarshal` gives. -/
theorem jsonSafe_of_deepEqual {F : Type} : ∀ (v : GoValue) (d : Decoded F),
    DeepEqual v d = true → JSONSafe v = true
  | .null, _, _ => rfl
  | .bool _, _, _ => rfl
  | .str _, _, _ => rfl
  | .slice xs, .slice ys, h =>
    jsonSafeList_of_deepEqual xs ys (by simpa [DeepEqual] using h)
  | .slice _, .null, h => by simp [DeepEqual] at h
  | .slice _, .bool _, h => by simp [DeepEqual] at h
  | .slice _, .float64 _, h => by simp [DeepEqual] at h
  | .slice _, .str _, h => by simp [DeepEqual] at h
  | .slice _, .map _, h => by simp [DeepEqual] at h
  | .int _, _, h => by simp [DeepEqual] at h
  | .object _, _, h => by simp [DeepEqual] at h
  | .chan, _, h => by simp [DeepEqual] at h
theorem jsonSafeList_of_deepEqual {F : Type} : ∀ (xs : List GoValue) (ys : List (Decoded F)),
    DeepEqualList xs ys = true → JSONSafeList xs = true
  | [], _, _ => rfl
  | _ :: _, [], h => by simp [DeepEqualList] at h
  | x :: xs, y :: ys, h => by
    have h1 : DeepEqual x y = true ∧ DeepEqualList xs ys = true := by
      simpa [DeepEqualList] using h
    simp [JSONSafeList, jsonSafe_of_deepEqual x y h1.1, jsonSafeList_of_deepEqual xs ys h1.2]
end

/-- What `json.Unmarshal` makes of the text of an `int` and of a struct: a
`float64` and a map, neither deep-equal to what was written. -/
theorem unmarshal_int_and_struct :
    jsonUnmarshal (fun text => some text) "-12" = some (.float64 ['-', '1', '2'])
    ∧ DeepEqual (.int (-12)) (Decoded.float64 ['-', '1', '2']) = false
    ∧ jsonUnmarshal (fun text => some text) "\x7b\"k\":null\x7d" =
        some (.map [("k", .null)])
    ∧ DeepEqual (.object [("k", .null)])
        (Decoded.map [("k", (Decoded.null : Decoded (List Char)))]) = false :=
  ⟨rfl, rfl, rfl, rfl⟩

/-- C10: for a JSON-safe payload and any status code, `RespondNoStruct` sets
the content type, writes the given status, and writes as body the
serialization of the payload itself, with nothing around it: `json.Unmarshal`
of the body gives a value deep-equal to the payload. -/
theorem RespondNoStruct_round_trip {F : Type} (parseFloat : List Char → Option F)
    (w : ResponseWriter) (code : Int) (payload : GoValue) (hsafe : JSONSafe payload = true) :
    ∃ body, jsonMarshal payload = (some body, none)
      ∧ RespondNoStruct w code payload =
          w ++ [.headerSet "Content-Type" "application/json", .writeHeader code, .write body]
      ∧ ∃ d, jsonUnmarshal parseFloat body = some d ∧ DeepEqual payload d = true := by
  obtain ⟨b, hb⟩ := encodeValue_of_jsonSafe payload hsafe
  have hm := jsonMarshal_of_encode hb
  obtain ⟨d, hd, heq⟩ :=
    unmarshalValue_encodeValue parseFloat payload b [] (b.length + 1) hsafe hb (by omega)
  rw [List.append_nil] at hd
  refine ⟨String.mk b, hm, by simp [RespondNoStruct, hm, bytesOf], d, ?_, heq⟩
  simp [jsonUnmarshal, hd, skipSpace]

theorem RespondNoStruct_round_trip_witness :
    ∃ body, jsonMarshal (.slice [.str "a<b\n", .null, .bool true, .slice []]) =
        (some body, none)
      ∧ RespondNoStruct [] 200 (.slice [.str "a<b\n", .null, .bool true, .slice []]) =
          [.headerSet "Content-Type" "application/json", .writeHeader 200, .write body]
      ∧ ∃ d, jsonUnmarshal (fun text => some text) body = some d
          ∧ DeepEqual (.slice [.str "a<b\n", .null, .bool true, .slice []]) d = true :=
  RespondNoStruct_round_trip (fun text => some text) [] 200
    (.slice [.str "a<b\n", .null, .bool true, .slice []]) (by decide)

/-- C1: for a payload that serializes, `RespondWithJSON` sets the content
type, then writes the status `code`, then writes a body that is the JSON
object with the members `code`, `message`, `count` and `data`, in this order
and with the arguments as values (`count` also when it is 0, and no `success`);
for `(404, "not found", nil, 0)` the body is the text of the scenario. -/
theorem RespondWithJSON_writes_envelope (w : ResponseWriter) (code : Int) (message : String)
    (payload : GoValue) (count : Int) (d : String)
    (h : jsonMarshal payload = (some d, none)) :
    (∃ body, RespondWithJSON w code message payload count =
        w ++ [.headerSet "Content-Type" "application/json", .writeHeader code, .write body]
      ∧ body = String.mk ("\x7b\"code\":".data ++ intDigits code ++ ",\"message\":".data
          ++ quote message ++ ",\"count\":".data ++ intDigits count ++ ",\"data\":".data
          ++ d.data ++ "\x7d".data)
      ∧ jsonDecode body = some (.object [("code", .int code), ("message", .str message),
          ("count", .int count), ("data", payload)]))
    ∧ RespondWithJSON w 404 "not found" .null 0 =
        w ++ [.headerSet "Content-Type" "application/json", .writeHeader 404,
          .write "\x7b\"code\":404,\"message\":\"not found\",\"count\":0,\"data\":null\x7d"] := by
  have hd := encode_of_jsonMarshal h
  have hshape : ∀ (c : Int) (m : String) (pl : GoValue) (n : Int),
      RespondWithJSON w c m pl n =
        w ++ [.headerSet "Content-Type" "application/json", .writeHeader c,
          .write (bytesOf (jsonMarshal
            (.object [("code", .int c), ("message", .str m), ("count", .int n),
              ("data", pl)])).1)] := by
    intro c m pl n
    simp [RespondWithJSON, ResponseJSON.toValue, ResponseJSON.fields]
  have hq1 : quote "code" = "\"code\"".data := by decide
  have hq2 : quote "message" = "\"message\"".data := by decide
  have hq3 : quote "count" = "\"count\"".data := by decide
  have hq4 : quote "data" = "\"data\"".data := by decide
  have henc : encodeValue (.object [("code", .int code), ("message", .str message),
      ("count", .int count), ("data", payload)]) =
      some ("\x7b\"code\":".data ++ intDigits code ++ ",\"message\":".data
          ++ quote message ++ ",\"count\":".data ++ intDigits count ++ ",\"data\":".data
          ++ d.data ++ "\x7d".data) := by
    simp [encodeValue, encodeFields, hd, hq1, hq2, hq3, hq4]
  refine ⟨⟨_, hshape code message payload count, ?_, ?_⟩, ?_⟩
  · simp [jsonMarshal, henc, bytesOf]
  · exact jsonDecode_jsonMarshal _ _ (by simp [jsonMarshal, henc, bytesOf])
  · rw [hshape]
    rfl

theorem RespondWithJSON_writes_envelope_witness :
    (∃ body, RespondWithJSON [] 201 "made" (.slice [.int 1, .int 2]) 2 =
        [.headerSet "Content-Type" "application/json", .writeHeader 201, .write body]
      ∧ body = String.mk ("\x7b\"code\":".data ++ intDigits 201 ++ ",\"message\":".data
          ++ quote "made" ++ ",\"count\":".data ++ intDigits 2 ++ ",\"data\":".data
          ++ "[1,2]".data ++ "\x7d".data)
      ∧ jsonDecode body = some (.object [("code", .int 201), ("message", .str "made"),
          ("count", .int 2), ("data", .slice [.int 1, .int 2])]))
    ∧ RespondWithJSON [] 404 "not found" .null 0 =
        [.headerSet "Content-Type" "application/json", .writeHeader 404,
          .write "\x7b\"code\":404,\"message\":\"not found\",\"count\":0,\"data\":null\x7d"] :=
  RespondWithJSON_writes_envelope [] 201 "made" (.slice [.int 1, .int 2]) 2 "[1,2]" (by decide)

theorem envelope_fields_spec (p : ResponseJSON) :
    ("success" ∈ p.fields.map Prod.fst ↔ p.Success ≠ none)
    ∧ ("count" ∈ p.fields.map Prod.fst ↔ p.Count ≠ none)
    ∧ ("success", GoValue.null) ∉ p.fields ∧ ("count", GoValue.null) ∉ p.fields
    ∧ "code" ∈ p.fields.map Prod.fst ∧ "message" ∈ p.fields.map Prod.fst
    ∧ "data" ∈ p.fields.map Prod.fst
    ∧ GoMap.get p.fields "code" = some (.int p.Code) := by
  obtain ⟨success, code, message, count, data⟩ := p
  rcases success with _ | b <;> rcases count with _ | n <;>
    simp [ResponseJSON.fields, GoMap.get]

/-- C2: for an envelope whose `Data` serializes, `Respond` writes the status
`p.Code` and a body that is a JSON object in which `success` is a member
exactly when `p.Success` is set and `count` exactly when `p.Count` is set
(neither is ever written as null), and `code`, `message` and `data` are always
members, `code` with the status written. -/
theorem Respond_writes_envelope (p : ResponseJSON) (w : ResponseWriter) (d : String)
    (h : jsonMarshal p.Data = (some d, none)) :
    ∃ body fields, p.Respond w =
        w ++ [.headerSet "Content-Type" "application/json", .writeHeader p.Code, .write body]
      ∧ jsonDecode body = some (.object fields)
      ∧ ("success" ∈ fields.map Prod.fst ↔ p.Success ≠ none)
      ∧ ("count" ∈ fields.map Prod.fst ↔ p.Count ≠ none)
      ∧ ("success", GoValue.null) ∉ fields ∧ ("count", GoValue.null) ∉ fields
      ∧ "code" ∈ fields.map Prod.fst ∧ "message" ∈ fields.map Prod.fst
      ∧ "data" ∈ fields.map Prod.fst
      ∧ GoMap.get fields "code" = some (.int p.Code) := by
  obtain ⟨b, hb⟩ := envelope_encode p d.data (encode_of_jsonMarshal h)
  refine ⟨String.mk b, p.fields, ?_, ?_, envelope_fields_spec p⟩
  · simp [ResponseJSON.Respond, jsonMarshal, hb, bytesOf]
  · exact jsonDecode_of_encode _ b hb

theorem Respond_writes_envelope_witness :
    ∃ body fields, ResponseJSON.Respond ⟨some false, 202, "queued", none, .str "job-7"⟩ [] =
        [.headerSet "Content-Type" "application/json", .writeHeader 202, .write body]
      ∧ jsonDecode body = some (.object fields)
      ∧ ("success" ∈ fields.map Prod.fst ↔ some false ≠ none)
      ∧ ("count" ∈ fields.map Prod.fst ↔ (none : Option Int) ≠ none)
      ∧ ("success", GoValue.null) ∉ fields ∧ ("count", GoValue.null) ∉ fields
      ∧ "code" ∈ fields.map Prod.fst ∧ "message" ∈ fields.map Prod.fst
      ∧ "data" ∈ fields.map Prod.fst
      ∧ GoMap.get fields "code" = some (.int 202) :=
  Respond_writes_envelope ⟨some false, 202, "queued", none, .str "job-7"⟩ [] "\"job-7\""
    (by decide)

end Http
